import Mathlib

/-!
Verification development for a C-source identifier renaming tool
(`c_obfuscator.py` / `c_deobfuscator.py`).

The Python programs are embedded shallowly: source text is `List Char`,
Python's `re` regular expressions are transcribed literally into a small
`Reg` syntax whose matcher implements the backtracking semantics of the
`re` module (leftmost match position, alternatives tried left to right,
greedy and lazy repetition, word boundaries, multiline anchors,
lookahead), and `re.sub` / `re.finditer` / `re.match` / `re.search` are
implemented as scanners over that matcher.  Python dictionaries (which
preserve insertion order and update values in place) are embedded as
association lists.  Python's stable `list.sort` is embedded as a stable
insertion sort.
-/

namespace CRen

/-- Python `\s` (ASCII part; the texts handled here use only ASCII whitespace). -/
def isPySpace (c : Char) : Bool :=
  c = ' ' || c = '\t' || c = '\n' || c = '\r' || c = '\x0b' || c = '\x0c'

/-- ASCII letter or underscore, the leading character class `[A-Za-z_]`. -/
def isAlphaUnd (c : Char) : Bool :=
  ('A' ≤ c && c ≤ 'Z') || ('a' ≤ c && c ≤ 'z') || c = '_'

/-- ASCII letter, digit or underscore, the class `[A-Za-z0-9_]`. -/
def isAlnumUnd (c : Char) : Bool :=
  isAlphaUnd c || ('0' ≤ c && c ≤ '9')

/-- ASCII digit, Python `\d` for the inputs in scope. -/
def isDigitCh (c : Char) : Bool := '0' ≤ c && c ≤ '9'

/-- Python `\w`: ASCII word characters, plus non-ASCII characters (the
only non-ASCII characters occurring in this development are Japanese
letters, which Python counts as word characters). -/
def pyWord (c : Char) : Bool := isAlnumUnd c || 128 ≤ c.toNat

/-- Word test on an optional character; `none` (text boundary) is not a word char. -/
def wordOpt : Option Char → Bool
  | none => false
  | some c => pyWord c

/-- Word test on the head of the remaining text. -/
def wordHead : List Char → Bool
  | [] => false
  | c :: _ => pyWord c

/-- Regular-expression syntax, covering exactly the constructs used by the
two Python programs.  `starR` is greedy `*`, `starLazyR` is lazy `*?`,
`bolR`/`eolM` are the `re.MULTILINE` anchors `^`/`$`, `eolS` is `$`
without `re.MULTILINE`, `bndR` is `\b`, `lookR` is lookahead `(?=...)`,
and `groupR i` is the `i`-th capturing group. -/
inductive Reg where
  | eps : Reg
  | predR : (Char → Bool) → Reg
  | seqR : Reg → Reg → Reg
  | altR : Reg → Reg → Reg
  | starR : Reg → Reg
  | starLazyR : Reg → Reg
  | groupR : Nat → Reg → Reg
  | bndR : Reg
  | bolR : Reg
  | eolM : Reg
  | eolS : Reg
  | lookR : Reg → Reg

/-- Captured groups (at most two groups occur in the transcribed patterns). -/
structure Caps where
  g1 : Option (List Char)
  g2 : Option (List Char)
deriving DecidableEq

def Caps.empty : Caps := ⟨none, none⟩

def setCap (i : Nat) (v : List Char) (c : Caps) : Caps :=
  if i = 0 then ⟨some v, c.g2⟩ else ⟨c.g1, some v⟩

/-- Literal character. -/
def chR (c : Char) : Reg := Reg.predR (· = c)

/-- Literal character sequence. -/
def chsL : List Char → Reg
  | [] => Reg.eps
  | c :: cs => Reg.seqR (chR c) (chsL cs)

def chs (s : String) : Reg := chsL s.data

/-- Character class from an explicit list. -/
def oneOf (l : List Char) : Reg := Reg.predR (l.contains ·)

/-- Negated character class. -/
def noneOf (l : List Char) : Reg := Reg.predR (fun c => ¬ l.contains c)

/-- Sequence of several regular expressions. -/
def seqs : List Reg → Reg
  | [] => Reg.eps
  | [r] => r
  | r :: rs => Reg.seqR r (seqs rs)

/-- Ordered alternation, first alternative preferred (Python semantics). -/
def alts : List Reg → Reg
  | [] => Reg.eps
  | [r] => r
  | r :: rs => Reg.altR r (alts rs)

/-- Greedy `+`. -/
def plusR (r : Reg) : Reg := Reg.seqR r (Reg.starR r)

/-- Lazy `+?`. -/
def plusLazyR (r : Reg) : Reg := Reg.seqR r (Reg.starLazyR r)

/-- Greedy `?` (present-first, Python semantics). -/
def optR (r : Reg) : Reg := Reg.altR r Reg.eps

/-- `\s*` and `\s+`. -/
def wsStar : Reg := Reg.starR (Reg.predR isPySpace)

def wsPlus : Reg := plusR (Reg.predR isPySpace)

/-- `.` without `re.DOTALL` (any char but newline). -/
def anyNoNl : Reg := Reg.predR (· ≠ '\n')

/-- `.` with `re.DOTALL`. -/
def anyCh : Reg := Reg.predR (fun _ => true)

/-- `[A-Za-z_][A-Za-z0-9_]*` (a C identifier). -/
def identR : Reg := Reg.seqR (Reg.predR isAlphaUnd) (Reg.starR (Reg.predR isAlnumUnd))

/-- Backtracking matcher in continuation-passing style.  `prev` is the
character immediately before the current position (needed by `\b` and by
the multiline `^`), `cs` is the remaining text.  The continuation
receives the updated `prev`, the remaining text and the captures; the
overall result is the final remaining text and captures of the first
success in Python's preference order.  `fuel` bounds the recursion depth
and is chosen far larger than any depth reachable on the inputs used. -/
def mrun : Nat → Reg → Option Char → List Char → Caps →
    (Option Char → List Char → Caps → Option (List Char × Caps)) →
    Option (List Char × Caps)
  | 0, _, _, _, _, _ => none
  | fuel + 1, r, prev, cs, caps, k =>
    match r with
    | .eps => k prev cs caps
    | .predR p =>
      match cs with
      | [] => none
      | c :: rest => if p c then k (some c) rest caps else none
    | .seqR a b => mrun fuel a prev cs caps fun p2 cs2 caps2 => mrun fuel b p2 cs2 caps2 k
    | .altR a b =>
      match mrun fuel a prev cs caps k with
      | some res => some res
      | none => mrun fuel b prev cs caps k
    | .starR a =>
      match mrun fuel a prev cs caps (fun p2 cs2 caps2 =>
          if cs2.length < cs.length then mrun fuel (.starR a) p2 cs2 caps2 k else none) with
      | some res => some res
      | none => k prev cs caps
    | .starLazyR a =>
      match k prev cs caps with
      | some res => some res
      | none => mrun fuel a prev cs caps fun p2 cs2 caps2 =>
          if cs2.length < cs.length then mrun fuel (.starLazyR a) p2 cs2 caps2 k else none
    | .groupR i a => mrun fuel a prev cs caps fun p2 cs2 caps2 =>
        k p2 cs2 (setCap i (cs.take (cs.length - cs2.length)) caps2)
    | .bndR => if wordOpt prev ≠ wordHead cs then k prev cs caps else none
    | .bolR =>
      match prev with
      | none => k prev cs caps
      | some c => if c = '\n' then k prev cs caps else none
    | .eolM =>
      match cs with
      | [] => k prev cs caps
      | c :: _ => if c = '\n' then k prev cs caps else none
    | .eolS =>
      match cs with
      | [] => k prev cs caps
      | [c] => if c = '\n' then k prev cs caps else none
      | _ => none
    | .lookR a =>
      match mrun fuel a prev cs caps (fun _ cs2 caps2 => some (cs2, caps2)) with
      | some _ => k prev cs caps
      | none => none

/-- Ample recursion-depth budget for the matcher. -/
def bigFuel : Nat := 1000000000

/-- Attempt a match of `r` at the current position; on success return the
number of characters consumed together with the captures. -/
def matchHere (r : Reg) (prev : Option Char) (cs : List Char) : Option (Nat × Caps) :=
  match mrun bigFuel r prev cs Caps.empty (fun _ rest caps => some (rest, caps)) with
  | some (rest, caps) => some (cs.length - rest.length, caps)
  | none => none

/-- Last character of a nonempty matched slice, for threading `prev`. -/
def lastPrev (whole : List Char) (prev : Option Char) : Option Char :=
  match whole.getLast? with
  | some c => some c
  | none => prev

/-- Core of `re.sub` with a state-passing replacement function: scan left
to right, replace each non-overlapping match (matching is performed on
the original text, as in Python), advance one character past a
zero-width match.  `fuel` is at least `cs.length + 1`, so the fuel never
runs out. -/
def reSubStateCore {σ : Type} (r : Reg) (f : σ → List Char → Caps → σ × List Char) :
    Nat → σ → Option Char → List Char → σ × List Char
  | 0, st, _, cs => (st, cs)
  | fuel + 1, st, prev, cs =>
    match matchHere r prev cs with
    | some (k, caps) =>
      if k = 0 then
        let (st', rep) := f st [] caps
        match cs with
        | [] => (st', rep)
        | c :: rest =>
          let (st'', out) := reSubStateCore r f fuel st' (some c) rest
          (st'', rep ++ c :: out)
      else
        let whole := cs.take k
        let (st', rep) := f st whole caps
        let (st'', out) := reSubStateCore r f fuel st' (lastPrev whole prev) (cs.drop k)
        (st'', rep ++ out)
    | none =>
      match cs with
      | [] => (st, [])
      | c :: rest =>
        let (st', out) := reSubStateCore r f fuel st (some c) rest
        (st', c :: out)

/-- `re.sub` with a state-passing replacement function. -/
def reSubState {σ : Type} (r : Reg) (f : σ → List Char → Caps → σ × List Char)
    (st : σ) (cs : List Char) : σ × List Char :=
  reSubStateCore r f (cs.length + 1) st none cs

/-- `re.sub` with a constant replacement string. -/
def reSubConst (r : Reg) (rep : List Char) (cs : List Char) : List Char :=
  (reSubState r (fun (_ : Unit) _ _ => ((), rep)) () cs).2

/-- Core of `re.finditer`: all non-overlapping matches, left to right. -/
def reFindCore (r : Reg) : Nat → Option Char → List Char → List (List Char × Caps)
  | 0, _, _ => []
  | fuel + 1, prev, cs =>
    match matchHere r prev cs with
    | some (k, caps) =>
      if k = 0 then
        match cs with
        | [] => [([], caps)]
        | c :: rest => ([], caps) :: reFindCore r fuel (some c) rest
      else
        (cs.take k, caps) :: reFindCore r fuel (lastPrev (cs.take k) prev) (cs.drop k)
    | none =>
      match cs with
      | [] => []
      | c :: rest => reFindCore r fuel (some c) rest

/-- `re.finditer`. -/
def reFinditer (r : Reg) (cs : List Char) : List (List Char × Caps) :=
  reFindCore r (cs.length + 1) none cs

/-- `re.match`: a match anchored at the start of the text. -/
def reMatch (r : Reg) (cs : List Char) : Option Caps :=
  match matchHere r none cs with
  | some (_, caps) => some caps
  | none => none

/-- Core of `re.search`: first match position, scanning left to right. -/
def reSearchCore (r : Reg) : Nat → Option Char → List Char → Option Caps
  | 0, _, _ => none
  | fuel + 1, prev, cs =>
    match matchHere r prev cs with
    | some (_, caps) => some caps
    | none =>
      match cs with
      | [] => none
      | c :: rest => reSearchCore r fuel (some c) rest

/-- `re.search`. -/
def reSearch (r : Reg) (cs : List Char) : Option Caps :=
  reSearchCore r (cs.length + 1) none cs

end CRen

namespace CRen

/-! ### Decimal rendering of counters (Python `f"...{n}"`) -/

/-- Decimal digit character. -/
def digitCh (n : Nat) : Char := Char.ofNat (48 + n % 10)

/-- Fueled decimal rendering, the standard digit-accumulator algorithm. -/
def natCharsCore : Nat → Nat → List Char → List Char
  | 0, _, ds => ds
  | fuel + 1, n, ds =>
    let d := digitCh (n % 10)
    let n' := n / 10
    if n' = 0 then d :: ds else natCharsCore fuel n' (d :: ds)

/-- Decimal rendering of a natural number, as Python's `str(n)`. -/
def natChars (n : Nat) : List Char := natCharsCore (n + 1) n []

/-! ### Python dictionaries as insertion-ordered association lists -/

/-- A Python `dict` from strings to strings: insertion-ordered entries. -/
abbrev Dict := List (List Char × List Char)

def dictKeys (d : Dict) : List (List Char) := d.map (·.1)

def dictVals (d : Dict) : List (List Char) := d.map (·.2)

/-- Python `key in dict`. -/
def dictHasKey (d : Dict) (k : List Char) : Bool := (dictKeys d).contains k

/-- Python `dict[key] = value`: update in place if the key exists
(keeping its position), otherwise append. -/
def dictInsert (d : Dict) (k v : List Char) : Dict :=
  if dictHasKey d k then d.map (fun p => if p.1 = k then (k, v) else p) else d ++ [(k, v)]

/-- Python `dict[key]` lookup (the call sites only look up present keys). -/
def dictFind (d : Dict) (k : List Char) : List Char :=
  match d.find? (fun p => p.1 == k) with
  | some p => p.2
  | none => []

/-! ### Stable sorting (Python's `list.sort` / `sorted` are stable) -/

/-- Stable insertion of `x` into a sorted list: `x` goes before the first
element `y` with `le x y`, so equal elements keep their original order. -/
def insertS {α : Type} (le : α → α → Bool) (x : α) : List α → List α
  | [] => [x]
  | y :: ys => if le x y then x :: y :: ys else y :: insertS le x ys

/-- Stable insertion sort; for a total boolean preorder `le` this computes
the same list as any stable sort, in particular Python's. -/
def ssort {α : Type} (le : α → α → Bool) (l : List α) : List α :=
  List.foldr (insertS le) [] l

/-- Code-point lexicographic strict order on strings (Python `<`). -/
def llLt : List Char → List Char → Bool
  | [], [] => false
  | [], _ :: _ => true
  | _ :: _, [] => false
  | a :: as, b :: bs => if a = b then llLt as bs else a.toNat < b.toNat

/-- Python tuple comparison `(old, new) <= (old', new')` used by
`sorted(dict.items())`. -/
def pairLe (p q : List Char × List Char) : Bool :=
  llLt p.1 q.1 || (p.1 == q.1 && (llLt p.2 q.2 || p.2 == q.2))

/-- Comparison embedding `sorted(keys, key=lambda x: (len(x), x), reverse=True)`:
`a` may precede `b` iff `(len b, b) <= (len a, a)` lexicographically. -/
def keyDescLe (a b : List Char) : Bool :=
  b.length < a.length || (b.length == a.length && (llLt b a || b == a))

/-! ### The obfuscator's data (`CObfuscator.__init__`) -/

/-- The eight identifier categories of `self.identifiers`. -/
inductive Cat where
  | macroC | enumC | structC | unionC | functionC | variableC | memberC | commentC
deriving DecidableEq

/-- Category letters from `self.patterns`:
macro=D, enum=e, struct=t, union=u, function=f, variable=v, member=m, comment=c. -/
def letterOf : Cat → Char
  | .macroC => 'D'
  | .enumC => 'e'
  | .structC => 't'
  | .unionC => 'u'
  | .functionC => 'f'
  | .variableC => 'v'
  | .memberC => 'm'
  | .commentC => 'c'

/-- `self.patterns[category] = prefix + letter`. -/
def patOf (pfx : List Char) (c : Cat) : List Char := pfx ++ [letterOf c]

/-- The mutable state of one `CObfuscator` instance: the per-category
maps `self.identifiers`, the per-category counters `self.counters`
(all starting at 1), the placeholder table `self.protected` and its
counter. -/
structure Obf where
  pfx : List Char
  idents : Cat → Dict
  counters : Cat → Nat
  protTable : Dict
  protCounter : Nat

def mkObf (pfx : List Char) : Obf :=
  ⟨pfx, fun _ => [], fun _ => 1, [], 0⟩

/-- `self.c_keywords`, transcribed in full. -/
def c_keywords : List (List Char) :=
  ["int", "char", "short", "long", "float", "double", "void",
   "signed", "unsigned", "uint8_t", "uint16_t", "uint32_t", "uint64_t",
   "int8_t", "int16_t", "int32_t", "int64_t", "size_t",
   "if", "else", "switch", "case", "default", "break", "continue",
   "for", "while", "do", "goto", "return",
   "auto", "register", "static", "extern", "typedef",
   "const", "volatile", "restrict",
   "struct", "union", "enum", "sizeof", "inline",
   "_Bool", "_Complex", "_Imaginary",
   "_Alignas", "_Alignof", "_Atomic", "_Static_assert",
   "_Noreturn", "_Thread_local", "_Generic",
   "printf", "scanf", "malloc", "free", "memcpy", "memset",
   "strlen", "strcpy", "strcmp", "strcat", "sprintf", "snprintf",
   "fopen", "fclose", "fread", "fwrite", "fprintf", "fscanf",
   "exit", "NULL", "main"].map String.data

/-- `CObfuscator.is_reserved_word`. -/
def is_reserved_word (name : List Char) : Bool := c_keywords.contains name

/-- Allocate `f"{self.patterns[cat]}{self.counters[cat]}"` for `name`,
store it in the category map and increment the category counter.  This is
the one code shape shared by every identifier registration in the source
(including comment registration inside `replace_comment`). -/
def allocIdent (cat : Cat) (name : List Char) (st : Obf) : Obf :=
  let newName := patOf st.pfx cat ++ natChars (st.counters cat)
  { st with
    idents := fun c => if c = cat then dictInsert (st.idents cat) name newName else st.idents c
    counters := fun c => if c = cat then st.counters cat + 1 else st.counters c }

end CRen

namespace CRen

/-! ### `CObfuscator.remove_comments_strings_and_directives` -/

/-- `f"__PROTECTED_{counter}__"`. -/
def placeholderOf (n : Nat) : List Char := ("__PROTECTED_").data ++ natChars n ++ ("__").data

/-- `replace_with_placeholder`: store the payload under a fresh placeholder
(placeholders are always fresh keys, so the dict assignment is an append). -/
def addProtected (st : Obf) (payload : List Char) : Obf × List Char :=
  let ph := placeholderOf st.protCounter
  ({ st with protTable := st.protTable ++ [(ph, payload)], protCounter := st.protCounter + 1 }, ph)

/-- `#include\s+[<"][^>"]+[>"]`. -/
def includeReg : Reg :=
  seqs [chs "#include", wsPlus, oneOf ['<', '"'], plusR (noneOf ['>', '"']), oneOf ['>', '"']]

/-- `#(?:if|ifdef|ifndef|elif|else|endif|pragma|error|warning)\b[^\n]*`. -/
def directiveReg : Reg :=
  seqs [chR '#',
    alts [chs "if", chs "ifdef", chs "ifndef", chs "elif", chs "else", chs "endif",
      chs "pragma", chs "error", chs "warning"],
    Reg.bndR, Reg.starR anyNoNl]

/-- `"(?:[^"\\]|\\.)*"`. -/
def dquoteReg : Reg :=
  seqs [chR '"', Reg.starR (Reg.altR (noneOf ['"', '\\']) (Reg.seqR (chR '\\') anyNoNl)), chR '"']

/-- `'(?:[^'\\]|\\.)*'`. -/
def squoteReg : Reg :=
  seqs [chR '\'', Reg.starR (Reg.altR (noneOf ['\'', '\\']) (Reg.seqR (chR '\\') anyNoNl)), chR '\'']

/-- `//[^\n]*`. -/
def lineCommentReg : Reg := Reg.seqR (chs "//") (Reg.starR anyNoNl)

/-- `/\*.*?\*/` with `re.DOTALL`. -/
def blockCommentReg : Reg := seqs [chs "/*", Reg.starLazyR anyCh, chs "*/"]

/-- Replacement function of the directive and literal passes: shield the
match verbatim. -/
def protectStep (st : Obf) (whole : List Char) (_ : Caps) : Obf × List Char :=
  addProtected st whole

/-- Python `str.strip()`. -/
def stripPy (l : List Char) : List Char :=
  ((l.dropWhile isPySpace).reverse.dropWhile isPySpace).reverse

/-- `replace_comment`: strip the comment body; a non-empty body is
registered as a fresh comment identifier (keyed by the body, so a repeated
body overwrites the earlier entry) and the shielded payload becomes the
renumbered comment; an empty comment is shielded verbatim. -/
def replace_comment (st : Obf) (whole : List Char) (_ : Caps) : Obf × List Char :=
  let isLine := ("//").data.isPrefixOf whole
  let content := if isLine then stripPy (whole.drop 2) else stripPy ((whole.drop 2).dropLast.dropLast)
  if content = [] then addProtected st whole
  else
    let cid := patOf st.pfx .commentC ++ natChars (st.counters .commentC)
    let st := allocIdent .commentC content st
    let transformed :=
      if isLine then ("// ").data ++ cid else ("/* ").data ++ cid ++ (" */").data
    addProtected st transformed

/-- `CObfuscator.remove_comments_strings_and_directives`: the six `re.sub`
passes in source order (includes, other directives, double-quoted
literals, single-quoted literals, line comments, block comments). -/
def remove_comments_strings_and_directives (st0 : Obf) (code0 : List Char) : Obf × List Char :=
  let st := { st0 with protTable := [], protCounter := 0 }
  let (st, code) := reSubState includeReg protectStep st code0
  let (st, code) := reSubState directiveReg protectStep st code
  let (st, code) := reSubState dquoteReg protectStep st code
  let (st, code) := reSubState squoteReg protectStep st code
  let (st, code) := reSubState lineCommentReg replace_comment st code
  let (st, code) := reSubState blockCommentReg replace_comment st code
  (st, code)

/-! ### `CObfuscator.restore_protected` -/

/-- Core of Python `str.replace` (all occurrences, left to right,
non-overlapping). -/
def strReplaceCore (tgt rep : List Char) : Nat → List Char → List Char
  | 0, cs => cs
  | _ + 1, [] => []
  | fuel + 1, c :: rest =>
    if tgt ≠ [] ∧ tgt.isPrefixOf (c :: rest) then
      rep ++ strReplaceCore tgt rep fuel ((c :: rest).drop tgt.length)
    else c :: strReplaceCore tgt rep fuel rest

/-- Python `code.replace(target, replacement)`. -/
def strReplaceAll (cs tgt rep : List Char) : List Char :=
  strReplaceCore tgt rep (cs.length + 1) cs

/-- `CObfuscator.restore_protected`: replace every placeholder by its
payload, iterating the placeholder table in insertion order. -/
def restore_protected (st : Obf) (code : List Char) : List Char :=
  st.protTable.foldl (fun c p => strReplaceAll c p.1 p.2) code

/-! ### `CObfuscator.extract_identifiers`: the classification patterns -/

/-- `#define\s+([A-Za-z_][A-Za-z0-9_]*)`. -/
def defineReg : Reg := seqs [chs "#define", wsPlus, Reg.groupR 0 identR]

/-- `enum\s+([A-Za-z_][A-Za-z0-9_]*)\s*(?:\{|;)`. -/
def enumDefReg : Reg :=
  seqs [chs "enum", wsPlus, Reg.groupR 0 identR, wsStar, Reg.altR (chR '\x7b') (chR ';')]

/-- `(?:\{|;|\*|[^\w])`, the tail of the struct and union tag patterns. -/
def structTailReg : Reg :=
  alts [chR '\x7b', chR ';', chR '*', Reg.predR (fun c => ¬ pyWord c)]

/-- `struct\s+([A-Za-z_][A-Za-z0-9_]*)\s*(?:\{|;|\*|[^\w])`. -/
def structDefReg : Reg := seqs [chs "struct", wsPlus, Reg.groupR 0 identR, wsStar, structTailReg]

/-- `union\s+([A-Za-z_][A-Za-z0-9_]*)\s*(?:\{|;|\*|[^\w])`. -/
def unionDefReg : Reg := seqs [chs "union", wsPlus, Reg.groupR 0 identR, wsStar, structTailReg]

/-- `\w+`. -/
def wPlus : Reg := plusR (Reg.predR pyWord)

/-- `uint\d+_t`. -/
def uintReg : Reg := seqs [chs "uint", plusR (Reg.predR isDigitCh), chs "_t"]

/-- `int\d+_t`. -/
def intNReg : Reg := seqs [chs "int", plusR (Reg.predR isDigitCh), chs "_t"]

/-- The return-type alternation of the function pattern, in source order:
`void|int|char|short|long|float|double|unsigned|signed|uint\d+_t|int\d+_t|size_t|struct\s+\w+|union\s+\w+|enum\s+\w+`. -/
def funcTypeReg : Reg :=
  alts [chs "void", chs "int", chs "char", chs "short", chs "long", chs "float", chs "double",
    chs "unsigned", chs "signed", uintReg, intNReg, chs "size_t",
    seqs [chs "struct", wsPlus, wPlus], seqs [chs "union", wsPlus, wPlus],
    seqs [chs "enum", wsPlus, wPlus]]

/-- The function declaration/definition pattern (with `re.MULTILINE`):
`(?:^|[\n;])\s*(?:static\s+|inline\s+|extern\s+)*(?:const\s+|volatile\s+)*<type>\s+(?:\*\s*)*([A-Za-z_][A-Za-z0-9_]*)\s*\([^)]*\)\s*(?:[;{])`. -/
def functionReg : Reg :=
  seqs [Reg.altR Reg.bolR (oneOf ['\n', ';']),
    wsStar,
    Reg.starR (alts [Reg.seqR (chs "static") wsPlus, Reg.seqR (chs "inline") wsPlus,
      Reg.seqR (chs "extern") wsPlus]),
    Reg.starR (Reg.altR (Reg.seqR (chs "const") wsPlus) (Reg.seqR (chs "volatile") wsPlus)),
    funcTypeReg, wsPlus,
    Reg.starR (Reg.seqR (chR '*') wsStar),
    Reg.groupR 0 identR, wsStar,
    chR '(', Reg.starR (noneOf [')']), chR ')', wsStar, oneOf [';', '\x7b']]

/-- `(?:->|\.)\s*([A-Za-z_][A-Za-z0-9_]*)`. -/
def memberAccessReg : Reg :=
  seqs [Reg.altR (chs "->") (chR '.'), wsStar, Reg.groupR 0 identR]

/-- `enum\s+(?:[A-Za-z_][A-Za-z0-9_]*)?\s*\{([^}]+)\}`. -/
def enumBlockReg : Reg :=
  seqs [chs "enum", wsPlus, optR identR, wsStar, chR '\x7b',
    Reg.groupR 0 (plusR (noneOf ['\x7d'])), chR '\x7d']

/-- `([A-Za-z_][A-Za-z0-9_]*)\s*(?:=\s*[^,}]+)?(?:,|})`, applied inside an
enum block. -/
def enumItemReg : Reg :=
  seqs [Reg.groupR 0 identR, wsStar,
    optR (seqs [chR '=', wsStar, plusR (noneOf [',', '\x7d'])]),
    Reg.altR (chR ',') (chR '\x7d')]

/-- `(?:struct|union)\s+(?:[A-Za-z_][A-Za-z0-9_]*)?\s*\{([^}]+)\}`. -/
def structUnionBlockReg : Reg :=
  seqs [Reg.altR (chs "struct") (chs "union"), wsPlus, optR identR, wsStar,
    chR '\x7b', Reg.groupR 0 (plusR (noneOf ['\x7d'])), chR '\x7d']

/-- The member type alternation:
`int|char|short|long|float|double|void|uint\d+_t|int\d+_t|size_t|struct\s+\w+|union\s+\w+|enum\s+\w+`. -/
def memberTypeReg : Reg :=
  alts [chs "int", chs "char", chs "short", chs "long", chs "float", chs "double",
    chs "void", uintReg, intNReg, chs "size_t",
    seqs [chs "struct", wsPlus, wPlus], seqs [chs "union", wsPlus, wPlus],
    seqs [chs "enum", wsPlus, wPlus]]

/-- `(?:unsigned\s+|const\s+|volatile\s+|static\s+)*<type>\s+(?:\*\s*)*([A-Za-z_][A-Za-z0-9_]*)\s*(?::\s*\d+|;|\[)`,
applied inside a struct or union block. -/
def memberDeclReg : Reg :=
  seqs [Reg.starR (alts [Reg.seqR (chs "unsigned") wsPlus, Reg.seqR (chs "const") wsPlus,
      Reg.seqR (chs "volatile") wsPlus, Reg.seqR (chs "static") wsPlus]),
    memberTypeReg, wsPlus,
    Reg.starR (Reg.seqR (chR '*') wsStar),
    Reg.groupR 0 identR, wsStar,
    alts [seqs [chR ':', wsStar, plusR (Reg.predR isDigitCh)], chR ';', chR '[']]

/-- The first variable pattern (function arguments):
`\(\s*(?:const\s+|volatile\s+)*(?:unsigned\s+|signed\s+)*<type>\s+(?:\*\s*)*([A-Za-z_][A-Za-z0-9_]*)\s*[,)]`. -/
def argVarReg : Reg :=
  seqs [chR '(', wsStar,
    Reg.starR (Reg.altR (Reg.seqR (chs "const") wsPlus) (Reg.seqR (chs "volatile") wsPlus)),
    Reg.starR (Reg.altR (Reg.seqR (chs "unsigned") wsPlus) (Reg.seqR (chs "signed") wsPlus)),
    memberTypeReg, wsPlus,
    Reg.starR (Reg.seqR (chR '*') wsStar),
    Reg.groupR 0 identR, wsStar, oneOf [',', ')']]

/-- The second variable pattern (globals and locals, with `re.MULTILINE`):
`(?:^|[\n;{])\s*(?:static\s+|extern\s+|const\s+|volatile\s+)*(?:unsigned\s+|signed\s+)*<type>\s+(?:\*\s*)*([A-Za-z_][A-Za-z0-9_]*)\s*(?:[=;\[,])`. -/
def declVarReg : Reg :=
  seqs [Reg.altR Reg.bolR (oneOf ['\n', ';', '\x7b']),
    wsStar,
    Reg.starR (alts [Reg.seqR (chs "static") wsPlus, Reg.seqR (chs "extern") wsPlus,
      Reg.seqR (chs "const") wsPlus, Reg.seqR (chs "volatile") wsPlus]),
    Reg.starR (Reg.altR (Reg.seqR (chs "unsigned") wsPlus) (Reg.seqR (chs "signed") wsPlus)),
    memberTypeReg, wsPlus,
    Reg.starR (Reg.seqR (chR '*') wsStar),
    Reg.groupR 0 identR, wsStar, oneOf ['=', ';', '[', ',']]

/-- `for\s*\(\s*(?:int|uint\d+_t|size_t)\s+([A-Za-z_][A-Za-z0-9_]*)`. -/
def forVarReg : Reg :=
  seqs [chs "for", wsStar, chR '(', wsStar,
    alts [chs "int", uintReg, chs "size_t"], wsPlus, Reg.groupR 0 identR]

/-- Group-1 capture of a match. -/
def cap0 (c : Caps) : List Char := c.g1.getD []

/-- All group-1 captures of `re.finditer(r, code)`. -/
def foundNames (r : Reg) (code : List Char) : List (List Char) :=
  (reFinditer r code).map (fun p => cap0 p.2)

/-- The guarded registration shared by the macro, enum, struct, union,
function and member passes: record the name unless it is already in this
category's map or is a reserved word. -/
def recordIfNew (cat : Cat) (st : Obf) (name : List Char) : Obf :=
  if !dictHasKey (st.idents cat) name && !is_reserved_word name then allocIdent cat name st else st

/-- The variable-pattern guard: the name must not be in any of the seven
non-comment category maps nor reserved. -/
def recordVariable (st : Obf) (name : List Char) : Obf :=
  if !dictHasKey (st.idents .functionC) name && !dictHasKey (st.idents .structC) name &&
     !dictHasKey (st.idents .unionC) name && !dictHasKey (st.idents .enumC) name &&
     !dictHasKey (st.idents .variableC) name && !dictHasKey (st.idents .macroC) name &&
     !dictHasKey (st.idents .memberC) name && !is_reserved_word name
  then allocIdent .variableC name st else st

/-- The for-loop variable guard: not already a variable or member, not reserved. -/
def recordForVariable (st : Obf) (name : List Char) : Obf :=
  if !dictHasKey (st.idents .variableC) name && !dictHasKey (st.idents .memberC) name &&
     !is_reserved_word name
  then allocIdent .variableC name st else st

/-- `CObfuscator.extract_identifiers`: the ten passes in source order. -/
def extract_identifiers (st0 : Obf) (code : List Char) : Obf :=
  let st := (foundNames defineReg code).foldl (recordIfNew .macroC) st0
  let st := (foundNames enumDefReg code).foldl (recordIfNew .enumC) st
  let st := (foundNames structDefReg code).foldl (recordIfNew .structC) st
  let st := (foundNames unionDefReg code).foldl (recordIfNew .unionC) st
  let st := (foundNames functionReg code).foldl (recordIfNew .functionC) st
  let st := (foundNames memberAccessReg code).foldl (recordIfNew .memberC) st
  let st := (foundNames enumBlockReg code).foldl
    (fun st block => (foundNames enumItemReg block).foldl (recordIfNew .memberC) st) st
  let st := (foundNames structUnionBlockReg code).foldl
    (fun st block => (foundNames memberDeclReg block).foldl (recordIfNew .memberC) st) st
  let st := (foundNames argVarReg code).foldl recordVariable st
  let st := (foundNames declVarReg code).foldl recordVariable st
  let st := (foundNames forVarReg code).foldl recordForVariable st
  st

/-! ### `CObfuscator.apply_transformations` -/

/-- `r'\b' + re.escape(name) + r'\b'`. -/
def wordBoundReg (name : List Char) : Reg := seqs [Reg.bndR, chsL name, Reg.bndR]

/-- The category order of `apply_transformations`
(`['macro', 'enum', 'struct', 'union', 'function', 'member', 'variable']`;
comments are not substituted). -/
def applyCats : List Cat :=
  [.macroC, .enumC, .structC, .unionC, .functionC, .memberC, .variableC]

/-- `all_items`: `(old_name, new_name, len(old_name))` triples over the
categories in order, each map in insertion order. -/
def allItems (st : Obf) : List (List Char × List Char × Nat) :=
  applyCats.foldl (fun acc cat => acc ++ (st.idents cat).map (fun p => (p.1, p.2, p.1.length))) []

/-- `all_items.sort(key=lambda x: x[2], reverse=True)`: stable sort by
length, descending; ties keep collection order. -/
def lenDescLe (a b : List Char × List Char × Nat) : Bool := Nat.ble b.2.2 a.2.2

/-- `CObfuscator.apply_transformations`. -/
def apply_transformations (st : Obf) (code : List Char) : List Char :=
  (ssort lenDescLe (allItems st)).foldl
    (fun code item => reSubConst (wordBoundReg item.1) item.2.1 code) code

/-! ### `CObfuscator.generate_conversion_table` -/

/-- Python format `{s:30s}`: left-justify to width 30. -/
def padTo30 (l : List Char) : List Char := l ++ List.replicate (30 - l.length) ' '

def eqLine : List Char := List.replicate 60 '='

/-- The category display order and headers of the conversion table. -/
def tableCats : List (String × Cat) :=
  [("マクロ名", .macroC), ("列挙型名", .enumC), ("構造体名", .structC), ("共用体名", .unionC),
   ("関数名", .functionC), ("変数名", .variableC), ("メンバ名", .memberC), ("コメント", .commentC)]

/-- `CObfuscator.generate_conversion_table`: header, one section per
non-empty category with entries sorted by `sorted(items)`, a total line,
all joined with newlines. -/
def generate_conversion_table (st : Obf) : List Char :=
  let header : List (List Char) :=
    [eqLine, ("識別子変換表 (プレフィックス: ").data ++ st.pfx ++ (")").data, eqLine]
  let step := fun (acc : List (List Char) × Nat) (pair : String × Cat) =>
    let d := st.idents pair.2
    if d = [] then acc
    else
      let lines := (ssort pairLe d).map
        (fun p => ("  ").data ++ padTo30 p.1 ++ (" -> ").data ++ p.2)
      (acc.1 ++ [("\n【").data ++ pair.1.data ++ ("】").data] ++ lines, acc.2 + d.length)
  let bodyTotal := tableCats.foldl step ([], 0)
  List.intercalate ("\n").data
    (header ++ bodyTotal.1 ++
      [("\n合計: ").data ++ natChars bodyTotal.2 ++ (" 件の識別子").data, eqLine])

/-! ### `CObfuscator.obfuscate` -/

/-- Result of one forward run: final state, transformed code, table text. -/
structure ObfResult where
  st : Obf
  code : List Char
  table : List Char

/-- `CObfuscator.obfuscate`: protect, classify, substitute, un-protect,
and produce the conversion table. -/
def obfuscate (pfx : List Char) (source_code : List Char) : ObfResult :=
  let st0 := mkObf pfx
  let protRes := remove_comments_strings_and_directives st0 source_code
  let st2 := extract_identifiers protRes.1 protRes.2
  let transformed := apply_transformations st2 protRes.2
  ⟨st2, restore_protected st2 transformed, generate_conversion_table st2⟩

end CRen

namespace CRen

/-! ### `CDeobfuscator` -/

/-- `プレフィックス:\s*(\w+)`, the prefix-declaration search pattern. -/
def prefixDetectReg : Reg :=
  seqs [chs "プレフィックス:", wsStar, Reg.groupR 0 (plusR (Reg.predR pyWord))]

/-- `^\s+(.+?)\s+->\s+(<pfx>[A-Za-z0-9_]+)\s*$`, the table entry grammar
(applied per line with `re.match`). -/
def tableLineReg (pfx : List Char) : Reg :=
  seqs [Reg.bolR, wsPlus, Reg.groupR 0 (plusLazyR anyNoNl),
    wsPlus, chs "->", wsPlus,
    Reg.groupR 1 (Reg.seqR (chsL pfx) (plusR (Reg.predR isAlnumUnd))), wsStar, Reg.eolS]

/-- Python `content.split('\n')`. -/
def splitNlCore : List Char → List Char → List (List Char)
  | acc, [] => [acc.reverse]
  | acc, c :: rest =>
    if c = '\n' then acc.reverse :: splitNlCore [] rest else splitNlCore (c :: acc) rest

def splitNl (cs : List Char) : List (List Char) := splitNlCore [] cs

/-- The parsed state of one `CDeobfuscator`: detected prefix and the
reverse map `self.conversion_map` (new name -> original name). -/
structure Deob where
  pfx : List Char
  conversion_map : Dict

/-- `CDeobfuscator.parse_conversion_table` (pure part): detect the prefix
(default `Ut`), then collect `new -> old` from every line matching the
entry grammar, `old` stripped. -/
def parse_conversion_table (content : List Char) : Deob :=
  let pfx := match reSearch prefixDetectReg content with
    | some caps => caps.g1.getD ("Ut").data
    | none => ("Ut").data
  let pat := tableLineReg pfx
  let cmap := (splitNl content).foldl (fun m line =>
    match reMatch pat line with
    | some caps => dictInsert m (caps.g2.getD []) (stripPy (caps.g1.getD []))
    | none => m) []
  ⟨pfx, cmap⟩

/-- `sorted(self.conversion_map.keys(), key=lambda x: (len(x), x), reverse=True)`. -/
def sorted_names_of (cmap : Dict) : List (List Char) := ssort keyDescLe (dictKeys cmap)

/-- The comment-identifier test of the partition loop:
`new_name.startswith(prefix + "c") and len(new_name) > len(prefix) + 1`
and the tail is all digits. -/
def isCommentToken (pfx name : List Char) : Bool :=
  (pfx ++ ['c']).isPrefixOf name && pfx.length + 1 < name.length &&
    (name.drop (pfx.length + 1)).all isDigitCh

/-- The partition of sorted names into comment and normal identifiers,
preserving the sorted order of each part. -/
def deobPartition (pfx : List Char) (names : List (List Char)) :
    List (List Char) × List (List Char) :=
  names.foldl (fun acc n =>
    if isCommentToken pfx n then (acc.1 ++ [n], acc.2) else (acc.1, acc.2 ++ [n])) ([], [])

/-- Python substring containment `needle in hay`. -/
def strContains (needle : List Char) : List Char → Bool
  | [] => needle.isPrefixOf []
  | c :: rest => needle.isPrefixOf (c :: rest) || strContains needle rest

/-- One iteration of the normal-identifier loop: the word-bounded
substitution, then — when the prefix occurs in the name — the three
underscore-delimited partial substitutions (`_name_`, `_name\b`, `\bname_`). -/
def deobNormalOne (pfx newName oldName : List Char) (code : List Char) : List Char :=
  let code := reSubConst (seqs [Reg.bndR, chsL newName, Reg.bndR]) oldName code
  if strContains pfx newName then
    let code := reSubConst (seqs [chR '_', chsL newName, chR '_'])
      ('_' :: (oldName ++ ['_'])) code
    let code := reSubConst (seqs [chR '_', chsL newName, Reg.bndR]) ('_' :: oldName) code
    reSubConst (seqs [Reg.bndR, chsL newName, chR '_']) (oldName ++ ['_']) code
  else code

/-- `//\s*<name>(?=\s*$|\s*\n)` with `re.MULTILINE`. -/
def lineCommentRestoreReg (newName : List Char) : Reg :=
  seqs [chs "//", wsStar, chsL newName,
    Reg.lookR (Reg.altR (Reg.seqR wsStar Reg.eolM) (Reg.seqR wsStar (chR '\n')))]

/-- `/\*\s*<name>\s*\*/`. -/
def blockCommentRestoreReg (newName : List Char) : Reg :=
  seqs [chs "/*", wsStar, chsL newName, wsStar, chs "*/"]

/-- One iteration of the comment-identifier loop: restore `// <token>`
(at end of line) and `/* <token> */`. -/
def deobCommentOne (newName oldName : List Char) (code : List Char) : List Char :=
  let code := reSubConst (lineCommentRestoreReg newName) (("// ").data ++ oldName) code
  reSubConst (blockCommentRestoreReg newName) (("/* ").data ++ oldName ++ (" */").data) code

/-- `CDeobfuscator.deobfuscate`: sort the assigned names (length then
lexicographic, descending), split off the comment tokens, run the normal
backward substitutions, then the comment restoration pass. -/
def deobfuscate (d : Deob) (code0 : List Char) : List Char :=
  let parts := deobPartition d.pfx (sorted_names_of d.conversion_map)
  let code1 := parts.2.foldl
    (fun code n => deobNormalOne d.pfx n (dictFind d.conversion_map n) code) code0
  parts.1.foldl (fun code n => deobCommentOne n (dictFind d.conversion_map n) code) code1

end CRen

namespace CRen

/-! ### Further definitions used by the verification -/

/-- The two phases of `deobfuscate`, as separate functions: the backward
substitution loop over the normal (non-comment) identifiers. -/
def deobNormalPass (d : Deob) (code : List Char) : List Char :=
  (deobPartition d.pfx (sorted_names_of d.conversion_map)).2.foldl
    (fun code n => deobNormalOne d.pfx n (dictFind d.conversion_map n) code) code

/-- The comment restoration loop of `deobfuscate`. -/
def deobCommentPass (d : Deob) (code : List Char) : List Char :=
  (deobPartition d.pfx (sorted_names_of d.conversion_map)).1.foldl
    (fun code n => deobCommentOne n (dictFind d.conversion_map n) code) code

/-- Modelled from the spec (§4.4 and the claim text), for comparison with
the implemented restorer: apply the (source, target) pairs in an order
sorted by source length descending with ties broken lexicographically
descending, each replacement rewriting exactly the identifier-boundary
occurrences. -/
def specBoundaryRestore (cmap : Dict) (code : List Char) : List Char :=
  let le := fun (p q : List Char × List Char) =>
    q.1.length < p.1.length ||
      (q.1.length == p.1.length && (llLt q.1 p.1 || q.1 == p.1))
  (ssort le cmap).foldl
    (fun code p => reSubConst (seqs [Reg.bndR, chsL p.1, Reg.bndR]) p.2 code) code

/-- The default prefix of both programs. -/
def utPfx : List Char := ("Ut").data

/-- A source with one macro, one struct tag and one member (the example
scenario of the spec). -/
def src9 : List Char := ("#define MAX_SIZE 100\nstruct Point \x7b int x_coord; \x7d;\n").data

/-- A source in which the same comment body `hi` appears twice. -/
def src10 : List Char := ("// hi\nint a;\n// hi\n").data

/-- A source in which a `#define`d name also occurs in member-access
position. -/
def src3 : List Char := ("#define FOO 1\nx.FOO;\n").data

/-- A valid C source (two adjacent string literals) whose first literal
contains placeholder-shaped text. -/
def src6 : List Char := ("\"__PROTECTED_1__\" \"x\"").data

/-- A source with string and character literals, an empty line comment,
an empty block comment and one non-empty comment. -/
def src6p : List Char :=
  ("int a;\n// note\nchar s = 'q';\nchar *t = \"hi\";\n//\n/**/\n").data

/-- A representative source exercising every category: macro, enum tag,
struct tag, union tag, function, variables, members (enumerator and
struct/union fields), a line comment and a block comment. -/
def src1 : List Char :=
  ("#define MAX 10\nenum Col \x7b R1, G1 \x7d;\nstruct Pt \x7b int xc; \x7d;\nunion Uq \x7b int rv; \x7d;\nint foo(int ab);\nint gv = 0;\nint foo(int ab) \x7b\n    // set\n    ab = MAX + gv;\n    /* done */\n    return ab;\n\x7d\n").data

/-- A source with a block comment written without inner spacing. -/
def srcC1sp : List Char := ("int a;\n/*hi*/\n").data

/-- A source with a block comment whose body spans two lines. -/
def srcC1ml : List Char := ("int a;\n/* a\nb */\n").data

/-- A placeholder-free source whose string literal spells the token that
the variable `a` will be assigned. -/
def srcC6lit : List Char := ("int a;\nchar *q = \"Utv1\";\n").data

/-- Unfueled decimal rendering, used only in proofs about `natChars`. -/
def natCharsAux (n : Nat) : List Char :=
  if _h : n < 10 then [digitCh n]
  else natCharsAux (n / 10) ++ [digitCh (n % 10)]
termination_by n
decreasing_by
  exact Nat.div_lt_self (by omega) (by omega)

/-- The run-state invariant of one obfuscation: counters start at 1 and
only grow; keys and values of each category map are duplicate-free; every
assigned value is `prefix ++ letter ++ digits k` with `1 ≤ k` below the
category counter; and for the append-only (non-comment) categories the
counter is the map size plus one and the `i`-th entry carries number
`i + 1`. -/
structure StInv (pfx : List Char) (st : Obf) : Prop where
  pfx_eq : st.pfx = pfx
  cnt_pos : ∀ cat, 1 ≤ st.counters cat
  keys_nodup : ∀ cat, (dictKeys (st.idents cat)).Nodup
  vals_nodup : ∀ cat, (dictVals (st.idents cat)).Nodup
  vals_shape : ∀ cat, ∀ v ∈ dictVals (st.idents cat),
    ∃ k, 1 ≤ k ∧ k < st.counters cat ∧ v = patOf pfx cat ++ natChars k
  seq_shape : ∀ cat, cat ≠ Cat.commentC →
    st.counters cat = (st.idents cat).length + 1 ∧
    dictVals (st.idents cat) =
      (List.range' 1 (st.idents cat).length).map (fun k => patOf pfx cat ++ natChars k)

end CRen

namespace CRen

/-! ## Helper lemmas: injectivity of the decimal rendering -/

/-- Decimal digit characters are pairwise distinct. -/
theorem digitCh_inj : ∀ a < 10, ∀ b < 10, digitCh a = digitCh b → a = b := by decide

theorem natCharsAux_ne_nil (n : Nat) : natCharsAux n ≠ [] := by
  unfold natCharsAux
  split
  · simp
  · simp

theorem natCharsAux_lt (n : Nat) (h : n < 10) : natCharsAux n = [digitCh n] := by
  conv_lhs => rw [natCharsAux]
  rw [dif_pos h]

theorem natCharsAux_ge (n : Nat) (h : ¬ n < 10) :
    natCharsAux n = natCharsAux (n / 10) ++ [digitCh (n % 10)] := by
  conv_lhs => rw [natCharsAux]
  rw [dif_neg h]

/-- The fueled renderer agrees with the unfueled one when the fuel exceeds `n`. -/
theorem natCharsCore_eq (fuel : Nat) : ∀ n ds, n < fuel →
    natCharsCore fuel n ds = natCharsAux n ++ ds := by
  induction fuel with
  | zero => intro n ds h; omega
  | succ fuel ih =>
    intro n ds h
    simp only [natCharsCore]
    by_cases h10 : n / 10 = 0
    · have hn : n < 10 := by omega
      rw [if_pos h10, natCharsAux_lt n hn, Nat.mod_eq_of_lt hn]
      simp
    · rw [if_neg h10]
      have hn10 : ¬ n < 10 := fun hc => h10 (Nat.div_eq_of_lt hc)
      have hdlt : n / 10 < n := Nat.div_lt_self (by omega) (by omega)
      have hlt : n / 10 < fuel := by omega
      rw [ih _ _ hlt, natCharsAux_ge n hn10]
      simp

theorem natCharsAux_inj : ∀ n m, natCharsAux n = natCharsAux m → n = m := by
  intro n
  induction n using Nat.strong_induction_on with
  | _ n ih =>
    intro m heq
    by_cases hn : n < 10 <;> by_cases hm : m < 10
    · rw [natCharsAux_lt n hn, natCharsAux_lt m hm] at heq
      simp only [List.cons.injEq] at heq
      exact digitCh_inj n hn m hm heq.1
    · rw [natCharsAux_ge m hm, natCharsAux_lt n hn] at heq
      have hlen : (1 : Nat) = (natCharsAux (m / 10)).length + 1 := by
        simpa using congrArg List.length heq
      have h0 : (natCharsAux (m / 10)).length = 0 := by omega
      exact absurd (List.length_eq_zero.mp h0) (natCharsAux_ne_nil (m / 10))
    · rw [natCharsAux_ge n hn, natCharsAux_lt m hm] at heq
      have hlen : (natCharsAux (n / 10)).length + 1 = 1 := by
        simpa using congrArg List.length heq
      have h0 : (natCharsAux (n / 10)).length = 0 := by omega
      exact absurd (List.length_eq_zero.mp h0) (natCharsAux_ne_nil (n / 10))
    · rw [natCharsAux_ge n hn, natCharsAux_ge m hm] at heq
      obtain ⟨h1, h2⟩ := List.append_inj' heq (by simp)
      have hdlt : n / 10 < n := Nat.div_lt_self (by omega) (by omega)
      have hd : n / 10 = m / 10 := ih (n / 10) hdlt (m / 10) h1
      simp only [List.cons.injEq] at h2
      have hm2 : n % 10 = m % 10 :=
        digitCh_inj _ (Nat.mod_lt _ (by omega)) _ (Nat.mod_lt _ (by omega)) h2.1
      omega

/-- `natChars` (Python's decimal `str`) is injective. -/
theorem natChars_inj {n m : Nat} (h : natChars n = natChars m) : n = m := by
  have h1 : natCharsAux n ++ ([] : List Char) = natCharsAux m ++ [] := by
    rw [← natCharsCore_eq (n + 1) n [] (by omega), ← natCharsCore_eq (m + 1) m [] (by omega)]
    exact h
  simp only [List.append_nil] at h1
  exact natCharsAux_inj _ _ h1

end CRen

namespace CRen

/-! ## Helper lemmas: the stable insertion sort -/

theorem mem_insertS {α : Type} (le : α → α → Bool) (x z : α) :
    ∀ l : List α, z ∈ insertS le x l ↔ z = x ∨ z ∈ l := by
  intro l
  induction l with
  | nil => simp [insertS]
  | cons y ys ih =>
    simp only [insertS]
    by_cases h : le x y = true
    · rw [if_pos h]
      simp only [List.mem_cons]
    · rw [if_neg h]
      simp only [List.mem_cons, ih]
      tauto

theorem insertS_pairwise {α : Type} (le : α → α → Bool)
    (htot : ∀ a b, le a b = true ∨ le b a = true)
    (htr : ∀ a b c, le a b = true → le b c = true → le a c = true)
    (x : α) : ∀ l : List α, l.Pairwise (fun a b => le a b = true) →
    (insertS le x l).Pairwise (fun a b => le a b = true) := by
  intro l
  induction l with
  | nil => intro _; simp [insertS]
  | cons y ys ih =>
    intro hl
    rcases List.pairwise_cons.mp hl with ⟨hy, hys⟩
    simp only [insertS]
    by_cases h : le x y = true
    · rw [if_pos h]
      refine List.pairwise_cons.mpr ⟨?_, hl⟩
      intro z hz
      rcases List.mem_cons.mp hz with rfl | hz'
      · exact h
      · exact htr x y z h (hy z hz')
    · rw [if_neg h]
      have hyx : le y x = true := (htot x y).resolve_left (by simpa using h)
      refine List.pairwise_cons.mpr ⟨?_, ih hys⟩
      intro z hz
      rcases (mem_insertS le x z ys).mp hz with rfl | hz'
      · exact hyx
      · exact hy z hz'

/-- The stable sort orders its output by `le` whenever `le` is a total
transitive boolean preorder. -/
theorem ssort_pairwise {α : Type} (le : α → α → Bool)
    (htot : ∀ a b, le a b = true ∨ le b a = true)
    (htr : ∀ a b c, le a b = true → le b c = true → le a c = true)
    (l : List α) : (ssort le l).Pairwise (fun a b => le a b = true) := by
  induction l with
  | nil => simp [ssort]
  | cons x xs ih => exact insertS_pairwise le htot htr x (ssort le xs) ih

/-! ## Helper lemmas: the comparison functions are total preorders -/

theorem lenDescLe_total (a b : List Char × List Char × Nat) :
    lenDescLe a b = true ∨ lenDescLe b a = true := by
  simp only [lenDescLe, Nat.ble_eq]
  omega

theorem lenDescLe_trans (a b c : List Char × List Char × Nat) :
    lenDescLe a b = true → lenDescLe b c = true → lenDescLe a c = true := by
  simp only [lenDescLe, Nat.ble_eq]
  omega

theorem charToNat_inj {a b : Char} (h : a.toNat = b.toNat) : a = b :=
  Char.ext (UInt32.ext h)

theorem llLt_trans : ∀ a b c : List Char, llLt a b = true → llLt b c = true →
    llLt a c = true := by
  intro a
  induction a with
  | nil =>
    intro b c hab hbc
    cases b with
    | nil => simp [llLt] at hab
    | cons y ys =>
      cases c with
      | nil => simp [llLt] at hbc
      | cons z zs => simp [llLt]
  | cons x xs ih =>
    intro b c hab hbc
    cases b with
    | nil => simp [llLt] at hab
    | cons y ys =>
      cases c with
      | nil => simp [llLt] at hbc
      | cons z zs =>
        simp only [llLt] at hab hbc ⊢
        by_cases hxy : x = y <;> by_cases hyz : y = z
        · subst hxy; subst hyz
          rw [if_pos rfl] at *
          exact ih ys zs hab hbc
        · subst hxy
          rw [if_pos rfl] at hab
          rw [if_neg hyz] at hbc ⊢
          exact hbc
        · subst hyz
          rw [if_neg hxy] at hab ⊢
          exact hab
        · rw [if_neg hxy] at hab
          rw [if_neg hyz] at hbc
          by_cases hxz : x = z
          · subst hxz
            simp only [decide_eq_true_eq] at hab hbc
            omega
          · rw [if_neg hxz]
            simp only [decide_eq_true_eq] at hab hbc ⊢
            omega

theorem llLt_tricho : ∀ a b : List Char, llLt a b = true ∨ a = b ∨ llLt b a = true := by
  intro a
  induction a with
  | nil =>
    intro b
    cases b with
    | nil => simp [llLt]
    | cons y ys => simp [llLt]
  | cons x xs ih =>
    intro b
    cases b with
    | nil => simp [llLt]
    | cons y ys =>
      by_cases hxy : x = y
      · subst hxy
        rcases ih ys with h | h | h
        · left; simp [llLt, h]
        · right; left; rw [h]
        · right; right; simp [llLt, h]
      · have hne : x.toNat ≠ y.toNat := fun hc => hxy (charToNat_inj hc)
        by_cases hlt : x.toNat < y.toNat
        · left; simp [llLt, if_neg hxy, hlt]
        · right; right
          have : y.toNat < x.toNat := by omega
          have hyx : y ≠ x := fun hc => hxy hc.symm
          simp [llLt, if_neg hyx, this]

theorem keyDescLe_total (a b : List Char) :
    keyDescLe a b = true ∨ keyDescLe b a = true := by
  simp only [keyDescLe, Bool.or_eq_true, Bool.and_eq_true, beq_iff_eq, decide_eq_true_eq]
  by_cases hlen : a.length = b.length
  · rcases llLt_tricho b a with h | h | h
    · left; right; exact ⟨hlen.symm, Or.inl h⟩
    · left; right; exact ⟨hlen.symm, Or.inr h⟩
    · right; right; exact ⟨hlen, Or.inl h⟩
  · omega

theorem keyDescLe_trans (a b c : List Char) :
    keyDescLe a b = true → keyDescLe b c = true → keyDescLe a c = true := by
  simp only [keyDescLe, Bool.or_eq_true, Bool.and_eq_true, beq_iff_eq, decide_eq_true_eq]
  rintro (h1 | ⟨h1e, h1r⟩) (h2 | ⟨h2e, h2r⟩)
  · left; omega
  · left; omega
  · left; omega
  · rcases h1r with h1l | h1q
    · rcases h2r with h2l | h2q
      · right; exact ⟨by omega, Or.inl (llLt_trans c b a h2l h1l)⟩
      · subst h2q; right; exact ⟨by omega, Or.inl h1l⟩
    · subst h1q
      right; exact ⟨by omega, h2r⟩

end CRen

namespace CRen

/-! ## Helper lemmas: dictionaries -/

theorem dictHasKey_iff (d : Dict) (k : List Char) :
    dictHasKey d k = true ↔ k ∈ dictKeys d := by
  simp [dictHasKey, List.contains, List.elem_iff]

theorem dictHasKey_false (d : Dict) (k : List Char) :
    dictHasKey d k = false ↔ k ∉ dictKeys d := by
  rw [← Bool.not_eq_true, not_iff_not]
  exact dictHasKey_iff d k

theorem dictHasKey_cons (p : List Char × List Char) (d : Dict) (k : List Char) :
    dictHasKey (p :: d) k = false ↔ (¬ k = p.1 ∧ dictHasKey d k = false) := by
  rw [dictHasKey_false, dictHasKey_false]
  simp [dictKeys, not_or]

theorem dictKeys_insert_new (d : Dict) (k v : List Char) (h : dictHasKey d k = false) :
    dictKeys (dictInsert d k v) = dictKeys d ++ [k] := by
  simp [dictInsert, h, dictKeys]

theorem dictVals_insert_new (d : Dict) (k v : List Char) (h : dictHasKey d k = false) :
    dictVals (dictInsert d k v) = dictVals d ++ [v] := by
  simp [dictInsert, h, dictVals]

theorem dict_upd_absent (k v : List Char) :
    ∀ d : Dict, dictHasKey d k = false →
      d.map (fun q => if q.1 = k then (k, v) else q) = d := by
  intro d
  induction d with
  | nil => intro _; rfl
  | cons p d ih =>
    intro h
    rw [dictHasKey_cons] at h
    simp only [List.map_cons]
    rw [if_neg (fun hc => h.1 hc.symm), ih h.2]

theorem dictInsert_overwrite (k v : List Char) :
    ∀ d : Dict, (dictKeys d).Nodup → dictHasKey d k = true →
    ∃ pre w post, d = pre ++ (k, w) :: post ∧
      dictInsert d k v = pre ++ (k, v) :: post ∧
      k ∉ dictKeys pre ∧ k ∉ dictKeys post := by
  intro d
  induction d with
  | nil => intro _ hk; simp [dictHasKey, dictKeys] at hk
  | cons p d ih =>
    intro hnd hk
    simp only [dictKeys, List.map_cons, List.nodup_cons] at hnd
    by_cases hp : p.1 = k
    · have hdk : dictHasKey d k = false := by
        rw [dictHasKey_false, ← hp]
        exact hnd.1
      refine ⟨[], p.2, d, ?_, ?_, by simp [dictKeys], ?_⟩
      · simp only [List.nil_append]
        rw [← hp]
      · simp only [dictInsert, hk, if_true, List.map_cons, if_pos hp, List.nil_append]
        rw [dict_upd_absent k v d hdk]
      · rw [← hp]; exact hnd.1
    · have hk' : dictHasKey d k = true := by
        rw [dictHasKey_iff] at hk ⊢
        simp only [dictKeys, List.map_cons, List.mem_cons] at hk
        rcases hk with h1 | h2
        · exact absurd h1.symm hp
        · exact h2
      have hnd' : (dictKeys d).Nodup := hnd.2
      obtain ⟨pre, w, post, hde, hie, hpre, hpost⟩ := ih hnd' hk'
      refine ⟨p :: pre, w, post, by rw [hde]; rfl, ?_, ?_, hpost⟩
      · have hins : dictInsert d k v = d.map (fun q => if q.1 = k then (k, v) else q) := by
          simp [dictInsert, hk']
        simp only [dictInsert, hk, if_true, List.map_cons, if_neg hp, List.cons_append]
        rw [← hins, hie]
      · simp only [dictKeys, List.map_cons, List.mem_cons, not_or]
        exact ⟨fun hc => hp hc.symm, by simpa [dictKeys] using hpre⟩

theorem dictFind_insert (k v : List Char) :
    ∀ d : Dict, dictFind (dictInsert d k v) k = v := by
  intro d
  induction d with
  | nil => simp [dictInsert, dictHasKey, dictKeys, dictFind]
  | cons p d ih =>
    by_cases hp : p.1 = k
    · have hk : dictHasKey (p :: d) k = true := by
        rw [dictHasKey_iff]
        simp [dictKeys, hp]
      simp only [dictInsert, hk, if_true, List.map_cons, if_pos hp, dictFind, List.find?]
      simp
    · have hbeq : (p.1 == k) = false := by simpa using hp
      cases hk : dictHasKey d k with
      | true =>
        have hk2 : dictHasKey (p :: d) k = true := by
          rw [dictHasKey_iff] at hk ⊢
          simp only [dictKeys, List.map_cons, List.mem_cons]
          right
          simpa [dictKeys] using hk
        have hins : dictInsert d k v = d.map (fun q => if q.1 = k then (k, v) else q) := by
          simp [dictInsert, hk]
        simp only [dictInsert, hk2, if_true, List.map_cons, if_neg hp, dictFind, List.find?, hbeq]
        have := ih
        simp only [dictFind, hins] at this
        exact this
      | false =>
        have hk2 : dictHasKey (p :: d) k = false := by
          rw [dictHasKey_cons]
          exact ⟨fun hc => hp hc.symm, hk⟩
        have hins : dictInsert d k v = d ++ [(k, v)] := by
          simp [dictInsert, hk]
        simp only [dictInsert, hk2, Bool.false_eq_true, if_false, List.cons_append, dictFind,
          List.find?, hbeq]
        have := ih
        simp only [dictFind, hins] at this
        exact this

end CRen

namespace CRen

/-! ## Helper lemmas: preservation of the run-state invariant -/

theorem dictInsert_length_new (d : Dict) (k v : List Char) (h : dictHasKey d k = false) :
    (dictInsert d k v).length = d.length + 1 := by
  simp [dictInsert, h]

theorem nodup_replace_mid {α : Type} {A B : List α} {w v : α}
    (h : (A ++ w :: B).Nodup) (hvA : v ∉ A) (hvB : v ∉ B) :
    (A ++ v :: B).Nodup := by
  rw [List.nodup_append] at h ⊢
  obtain ⟨hA, hwB, hdisj⟩ := h
  refine ⟨hA, ?_, ?_⟩
  · rw [List.nodup_cons]
    exact ⟨hvB, (List.nodup_cons.mp hwB).2⟩
  · intro a haA hmem2
    rcases List.mem_cons.mp hmem2 with rfl | hB
    · exact hvA haA
    · exact hdisj haA (List.mem_cons_of_mem _ hB)

theorem allocIdent_pfx (cat : Cat) (name : List Char) (st : Obf) :
    (allocIdent cat name st).pfx = st.pfx := rfl

theorem allocIdent_prot (cat : Cat) (name : List Char) (st : Obf) :
    (allocIdent cat name st).protTable = st.protTable := rfl

theorem allocIdent_idents_self (cat : Cat) (name : List Char) (st : Obf) :
    (allocIdent cat name st).idents cat =
      dictInsert (st.idents cat) name (patOf st.pfx cat ++ natChars (st.counters cat)) := by
  simp [allocIdent]

theorem allocIdent_idents_other (cat : Cat) (name : List Char) (st : Obf) (c : Cat)
    (h : c ≠ cat) : (allocIdent cat name st).idents c = st.idents c := by
  simp [allocIdent, h]

theorem allocIdent_counters_self (cat : Cat) (name : List Char) (st : Obf) :
    (allocIdent cat name st).counters cat = st.counters cat + 1 := by
  simp [allocIdent]

theorem allocIdent_counters_other (cat : Cat) (name : List Char) (st : Obf) (c : Cat)
    (h : c ≠ cat) : (allocIdent cat name st).counters c = st.counters c := by
  simp [allocIdent, h]

/-- The invariant only depends on the identifier maps, the counters and
the prefix. -/
theorem stInv_of_same {pfx : List Char} {st st' : Obf} (h : StInv pfx st)
    (hi : st'.idents = st.idents) (hc : st'.counters = st.counters) (hp : st'.pfx = st.pfx) :
    StInv pfx st' := by
  constructor
  · rw [hp]; exact h.pfx_eq
  · intro cat; rw [hc]; exact h.cnt_pos cat
  · intro cat; rw [hi]; exact h.keys_nodup cat
  · intro cat; rw [hi]; exact h.vals_nodup cat
  · intro cat; rw [hi, hc]; exact h.vals_shape cat
  · intro cat hne; rw [hi, hc]; exact h.seq_shape cat hne

/-- The value allocated next is distinct from every value already in the
category map. -/
theorem fresh_val {pfx : List Char} {st : Obf} (cat : Cat) (h : StInv pfx st) :
    (patOf st.pfx cat ++ natChars (st.counters cat)) ∉ dictVals (st.idents cat) := by
  intro hmem
  obtain ⟨k, _, hk2, hk3⟩ := h.vals_shape cat _ hmem
  rw [h.pfx_eq] at hk3
  have := natChars_inj (List.append_cancel_left hk3)
  omega

theorem stInv_allocIdent_new {pfx : List Char} {st : Obf} (cat : Cat) (name : List Char)
    (h : StInv pfx st) (hnew : dictHasKey (st.idents cat) name = false) :
    StInv pfx (allocIdent cat name st) := by
  constructor
  · rw [allocIdent_pfx]; exact h.pfx_eq
  · intro c
    by_cases hc : c = cat
    · subst hc
      rw [allocIdent_counters_self]
      have := h.cnt_pos c
      omega
    · rw [allocIdent_counters_other _ _ _ _ hc]
      exact h.cnt_pos c
  · intro c
    by_cases hc : c = cat
    · subst hc
      rw [allocIdent_idents_self, dictKeys_insert_new _ _ _ hnew]
      have hnotin : name ∉ dictKeys (st.idents c) := (dictHasKey_false _ _).mp hnew
      refine (List.nodup_append).mpr ⟨h.keys_nodup c, List.nodup_singleton _, ?_⟩
      intro a ha hb
      simp only [List.mem_singleton] at hb
      exact hnotin (hb ▸ ha)
    · rw [allocIdent_idents_other _ _ _ _ hc]
      exact h.keys_nodup c
  · intro c
    by_cases hc : c = cat
    · subst hc
      rw [allocIdent_idents_self, dictVals_insert_new _ _ _ hnew]
      refine (List.nodup_append).mpr ⟨h.vals_nodup c, List.nodup_singleton _, ?_⟩
      intro a ha hb
      simp only [List.mem_singleton] at hb
      exact fresh_val c h (hb ▸ ha)
    · rw [allocIdent_idents_other _ _ _ _ hc]
      exact h.vals_nodup c
  · intro c v hv
    by_cases hc : c = cat
    · subst hc
      rw [allocIdent_idents_self, dictVals_insert_new _ _ _ hnew] at hv
      rw [allocIdent_counters_self]
      rcases List.mem_append.mp hv with hold | hnewv
      · obtain ⟨k, h1, h2, h3⟩ := h.vals_shape c v hold
        exact ⟨k, h1, by omega, h3⟩
      · simp only [List.mem_singleton] at hnewv
        refine ⟨st.counters c, h.cnt_pos c, by omega, ?_⟩
        rw [hnewv, h.pfx_eq]
    · rw [allocIdent_idents_other _ _ _ _ hc] at hv
      rw [allocIdent_counters_other _ _ _ _ hc]
      exact h.vals_shape c v hv
  · intro c hne
    by_cases hc : c = cat
    · subst hc
      obtain ⟨hcnt, hvals⟩ := h.seq_shape c hne
      constructor
      · rw [allocIdent_counters_self, allocIdent_idents_self,
          dictInsert_length_new _ _ _ hnew]
        omega
      · rw [allocIdent_idents_self, dictVals_insert_new _ _ _ hnew,
          dictInsert_length_new _ _ _ hnew, hvals]
        rw [List.range'_concat]
        rw [List.map_append]
        simp only [List.map_cons, List.map_nil, List.cons.injEq]
        have harith : 1 + 1 * (st.idents c).length = (st.idents c).length + 1 := by omega
        rw [harith, ← hcnt, h.pfx_eq]
    · rw [allocIdent_idents_other _ _ _ _ hc, allocIdent_counters_other _ _ _ _ hc]
      exact h.seq_shape c hne

theorem stInv_allocIdent_comment {pfx : List Char} {st : Obf} (name : List Char)
    (h : StInv pfx st) : StInv pfx (allocIdent .commentC name st) := by
  cases hnew : dictHasKey (st.idents .commentC) name with
  | false => exact stInv_allocIdent_new _ _ h hnew
  | true =>
    obtain ⟨pre, w, post, hde, hie, hpre, hpost⟩ :=
      dictInsert_overwrite name (patOf st.pfx .commentC ++ natChars (st.counters .commentC))
        (st.idents .commentC) (h.keys_nodup _) hnew
    have hvals_old : dictVals (st.idents .commentC) = dictVals pre ++ w :: dictVals post := by
      rw [hde]; simp [dictVals]
    have hkeys_eq :
        dictKeys (pre ++ (name, patOf st.pfx .commentC ++ natChars (st.counters .commentC)) :: post)
          = dictKeys (st.idents .commentC) := by
      rw [hde]; simp [dictKeys]
    have hvals_new :
        dictVals (pre ++ (name, patOf st.pfx .commentC ++ natChars (st.counters .commentC)) :: post)
          = dictVals pre ++ (patOf st.pfx .commentC ++ natChars (st.counters .commentC)) :: dictVals post := by
      simp [dictVals]
    have hlen_eq :
        (pre ++ (name, patOf st.pfx .commentC ++ natChars (st.counters .commentC)) :: post).length
          = (st.idents .commentC).length := by
      rw [hde]; simp
    have hfresh := fresh_val .commentC h
    have hfresh_pre : (patOf st.pfx .commentC ++ natChars (st.counters .commentC)) ∉ dictVals pre := by
      intro hc; exact hfresh (by rw [hvals_old]; exact List.mem_append.mpr (Or.inl hc))
    have hfresh_post : (patOf st.pfx .commentC ++ natChars (st.counters .commentC)) ∉ dictVals post := by
      intro hc
      exact hfresh (by rw [hvals_old]; exact List.mem_append.mpr (Or.inr (List.mem_cons_of_mem _ hc)))
    constructor
    · rw [allocIdent_pfx]; exact h.pfx_eq
    · intro c
      by_cases hc : c = Cat.commentC
      · subst hc
        rw [allocIdent_counters_self]
        have := h.cnt_pos Cat.commentC
        omega
      · rw [allocIdent_counters_other _ _ _ _ hc]
        exact h.cnt_pos c
    · intro c
      by_cases hc : c = Cat.commentC
      · subst hc
        rw [allocIdent_idents_self, hie, hkeys_eq]
        exact h.keys_nodup Cat.commentC
      · rw [allocIdent_idents_other _ _ _ _ hc]
        exact h.keys_nodup c
    · intro c
      by_cases hc : c = Cat.commentC
      · subst hc
        rw [allocIdent_idents_self, hie, hvals_new]
        have hnodup_old := h.vals_nodup Cat.commentC
        rw [hvals_old] at hnodup_old
        exact nodup_replace_mid hnodup_old hfresh_pre hfresh_post
      · rw [allocIdent_idents_other _ _ _ _ hc]
        exact h.vals_nodup c
    · intro c v hv
      by_cases hc : c = Cat.commentC
      · subst hc
        rw [allocIdent_idents_self, hie, hvals_new] at hv
        rw [allocIdent_counters_self]
        rcases List.mem_append.mp hv with hold | hrest
        · obtain ⟨k, h1, h2, h3⟩ := h.vals_shape Cat.commentC v
            (by rw [hvals_old]; exact List.mem_append.mpr (Or.inl hold))
          exact ⟨k, h1, by omega, h3⟩
        · rcases List.mem_cons.mp hrest with hnewv | hold
          · refine ⟨st.counters Cat.commentC, h.cnt_pos Cat.commentC, by omega, ?_⟩
            rw [hnewv, h.pfx_eq]
          · obtain ⟨k, h1, h2, h3⟩ := h.vals_shape Cat.commentC v
              (by rw [hvals_old]; exact List.mem_append.mpr (Or.inr (List.mem_cons_of_mem _ hold)))
            exact ⟨k, h1, by omega, h3⟩
      · rw [allocIdent_idents_other _ _ _ _ hc] at hv
        rw [allocIdent_counters_other _ _ _ _ hc]
        exact h.vals_shape c v hv
    · intro c hne
      rw [allocIdent_idents_other _ _ _ _ hne, allocIdent_counters_other _ _ _ _ hne]
      exact h.seq_shape c hne

end CRen

namespace CRen

/-! ## Helper lemmas: invariant preservation through the pipeline -/

theorem addProtected_idents (st : Obf) (p : List Char) :
    (addProtected st p).1.idents = st.idents := rfl

theorem addProtected_counters (st : Obf) (p : List Char) :
    (addProtected st p).1.counters = st.counters := rfl

theorem addProtected_pfx (st : Obf) (p : List Char) :
    (addProtected st p).1.pfx = st.pfx := rfl

theorem stInv_protectStep {pfx : List Char} (st : Obf) (whole : List Char) (caps : Caps)
    (h : StInv pfx st) : StInv pfx (protectStep st whole caps).1 :=
  stInv_of_same h rfl rfl rfl

theorem stInv_replace_comment {pfx : List Char} (st : Obf) (whole : List Char) (caps : Caps)
    (h : StInv pfx st) : StInv pfx (replace_comment st whole caps).1 := by
  unfold replace_comment
  dsimp only
  split <;> split
  · exact stInv_of_same h rfl rfl rfl
  · exact stInv_of_same (stInv_allocIdent_comment _ h) rfl rfl rfl
  · exact stInv_of_same h rfl rfl rfl
  · exact stInv_of_same (stInv_allocIdent_comment _ h) rfl rfl rfl

theorem foldl_preserve {σ α : Type} (P : σ → Prop) (f : σ → α → σ)
    (h : ∀ s a, P s → P (f s a)) : ∀ (l : List α) (s : σ), P s → P (l.foldl f s) := by
  intro l
  induction l with
  | nil => intro s hs; exact hs
  | cons a l ih => intro s hs; exact ih (f s a) (h s a hs)

theorem reSubStateCore_preserve {σ : Type} (P : σ → Prop) (r : Reg)
    (f : σ → List Char → Caps → σ × List Char)
    (hf : ∀ s whole caps, P s → P (f s whole caps).1) :
    ∀ (fuel : Nat) (prev : Option Char) (cs : List Char) (s : σ), P s →
      P (reSubStateCore r f fuel s prev cs).1 := by
  intro fuel
  induction fuel with
  | zero => intro prev cs s hs; simpa [reSubStateCore] using hs
  | succ fuel ih =>
    intro prev cs s hs
    simp only [reSubStateCore]
    cases hm : matchHere r prev cs with
    | none =>
      cases cs with
      | nil => simpa using hs
      | cons c rest =>
        rcases hrec : reSubStateCore r f fuel s (some c) rest with ⟨st', out⟩
        have := ih (some c) rest s hs
        rw [hrec] at this
        simpa [hrec] using this
    | some kc =>
      rcases kc with ⟨k, caps⟩
      by_cases hk : k = 0
      · subst hk
        simp only [if_pos rfl]
        cases cs with
        | nil =>
          rcases hfc : f s [] caps with ⟨st', rep⟩
          have := hf s [] caps hs
          rw [hfc] at this
          simpa [hfc] using this
        | cons c rest =>
          rcases hfc : f s [] caps with ⟨st', rep⟩
          rcases hrec : reSubStateCore r f fuel st' (some c) rest with ⟨st'', out⟩
          have h1 := hf s [] caps hs
          rw [hfc] at h1
          have h2 := ih (some c) rest st' h1
          rw [hrec] at h2
          simpa [hfc, hrec] using h2
      · simp only [if_neg hk]
        rcases hfc : f s (cs.take k) caps with ⟨st', rep⟩
        rcases hrec : reSubStateCore r f fuel st' (lastPrev (cs.take k) prev) (cs.drop k)
          with ⟨st'', out⟩
        have h1 := hf s (cs.take k) caps hs
        rw [hfc] at h1
        have h2 := ih (lastPrev (cs.take k) prev) (cs.drop k) st' h1
        rw [hrec] at h2
        simpa [hfc, hrec] using h2

theorem stInv_reSubState {pfx : List Char} (r : Reg)
    (f : Obf → List Char → Caps → Obf × List Char)
    (hf : ∀ s whole caps, StInv pfx s → StInv pfx (f s whole caps).1)
    (st : Obf) (cs : List Char) (h : StInv pfx st) :
    StInv pfx (reSubState r f st cs).1 :=
  reSubStateCore_preserve (StInv pfx) r f hf _ none cs st h

theorem stInv_remove_comments {pfx : List Char} (st : Obf) (code : List Char)
    (h : StInv pfx st) :
    StInv pfx (remove_comments_strings_and_directives st code).1 := by
  have h0 : StInv pfx { st with protTable := [], protCounter := 0 } :=
    stInv_of_same h rfl rfl rfl
  exact stInv_reSubState _ _ (fun s w c => stInv_replace_comment s w c) _ _
    (stInv_reSubState _ _ (fun s w c => stInv_replace_comment s w c) _ _
      (stInv_reSubState _ _ (fun s w c => stInv_protectStep s w c) _ _
        (stInv_reSubState _ _ (fun s w c => stInv_protectStep s w c) _ _
          (stInv_reSubState _ _ (fun s w c => stInv_protectStep s w c) _ _
            (stInv_reSubState _ _ (fun s w c => stInv_protectStep s w c) _ _ h0)))))

theorem stInv_recordIfNew {pfx : List Char} (cat : Cat) (s : Obf) (name : List Char)
    (h : StInv pfx s) : StInv pfx (recordIfNew cat s name) := by
  unfold recordIfNew
  split
  · next hcond =>
    simp only [Bool.and_eq_true, Bool.not_eq_true'] at hcond
    exact stInv_allocIdent_new cat name h hcond.1
  · exact h

theorem stInv_recordVariable {pfx : List Char} (s : Obf) (name : List Char)
    (h : StInv pfx s) : StInv pfx (recordVariable s name) := by
  unfold recordVariable
  split
  · next hcond =>
    simp only [Bool.and_eq_true, Bool.not_eq_true'] at hcond
    exact stInv_allocIdent_new _ name h hcond.1.1.1.2
  · exact h

theorem stInv_recordForVariable {pfx : List Char} (s : Obf) (name : List Char)
    (h : StInv pfx s) : StInv pfx (recordForVariable s name) := by
  unfold recordForVariable
  split
  · next hcond =>
    simp only [Bool.and_eq_true, Bool.not_eq_true'] at hcond
    exact stInv_allocIdent_new _ name h hcond.1.1
  · exact h

theorem stInv_extract {pfx : List Char} (st : Obf) (code : List Char) (h : StInv pfx st) :
    StInv pfx (extract_identifiers st code) := by
  unfold extract_identifiers
  apply foldl_preserve _ _ (fun s a hs => stInv_recordForVariable s a hs)
  apply foldl_preserve _ _ (fun s a hs => stInv_recordVariable s a hs)
  apply foldl_preserve _ _ (fun s a hs => stInv_recordVariable s a hs)
  apply foldl_preserve _ _
    (fun s a hs => foldl_preserve _ _ (fun s2 a2 hs2 => stInv_recordIfNew .memberC s2 a2 hs2) _ _ hs)
  apply foldl_preserve _ _
    (fun s a hs => foldl_preserve _ _ (fun s2 a2 hs2 => stInv_recordIfNew .memberC s2 a2 hs2) _ _ hs)
  apply foldl_preserve _ _ (fun s a hs => stInv_recordIfNew .memberC s a hs)
  apply foldl_preserve _ _ (fun s a hs => stInv_recordIfNew .functionC s a hs)
  apply foldl_preserve _ _ (fun s a hs => stInv_recordIfNew .unionC s a hs)
  apply foldl_preserve _ _ (fun s a hs => stInv_recordIfNew .structC s a hs)
  apply foldl_preserve _ _ (fun s a hs => stInv_recordIfNew .enumC s a hs)
  apply foldl_preserve _ _ (fun s a hs => stInv_recordIfNew .macroC s a hs)
  exact h

theorem stInv_mkObf (pfx : List Char) : StInv pfx (mkObf pfx) := by
  constructor
  · rfl
  · intro _; exact Nat.le_refl 1
  · intro _; simp [mkObf, dictKeys]
  · intro _; simp [mkObf, dictVals]
  · intro cat v hv; simp [mkObf, dictVals] at hv
  · intro cat _
    constructor
    · rfl
    · simp [mkObf, dictVals]

/-- The invariant holds for the final state of every forward run. -/
theorem stInv_obfuscate (pfx src : List Char) : StInv pfx (obfuscate pfx src).st :=
  stInv_extract _ _ (stInv_remove_comments _ _ (stInv_mkObf pfx))

end CRen

namespace CRen

/-! ## Helper lemmas: consequences of the invariant -/

theorem letterOf_inj (c1 c2 : Cat) (h : letterOf c1 = letterOf c2) : c1 = c2 := by
  cases c1 <;> cases c2 <;> revert h <;> decide

theorem mem_val_unique : ∀ d : Dict, (dictVals d).Nodup →
    ∀ {o1 o2 a : List Char}, (o1, a) ∈ d → (o2, a) ∈ d → o1 = o2 := by
  intro d
  induction d with
  | nil => intro _ o1 o2 a h1; simp at h1
  | cons p rest ih =>
    intro hnd o1 o2 a h1 h2
    have hnd' : p.2 ∉ dictVals rest ∧ (dictVals rest).Nodup := by
      simpa [dictVals] using hnd
    rcases List.mem_cons.mp h1 with he1 | h1' <;> rcases List.mem_cons.mp h2 with he2 | h2'
    · rw [← he2] at he1
      exact congrArg Prod.fst he1
    · exfalso
      apply hnd'.1
      have ha : a ∈ dictVals rest := List.mem_map_of_mem _ h2'
      rw [show p.2 = a from (congrArg Prod.snd he1).symm]
      exact ha
    · exfalso
      apply hnd'.1
      have ha : a ∈ dictVals rest := List.mem_map_of_mem _ h1'
      rw [show p.2 = a from (congrArg Prod.snd he2).symm]
      exact ha
    · exact ih hnd'.2 h1' h2'

/-- From the invariant: an assigned name determines its category and its
original name. -/
theorem stInv_assigned_unique {pfx : List Char} {st : Obf} (h : StInv pfx st)
    {c1 c2 : Cat} {o1 o2 a : List Char}
    (h1 : (o1, a) ∈ st.idents c1) (h2 : (o2, a) ∈ st.idents c2) : c1 = c2 ∧ o1 = o2 := by
  have hv1 : a ∈ dictVals (st.idents c1) := List.mem_map_of_mem _ h1
  have hv2 : a ∈ dictVals (st.idents c2) := List.mem_map_of_mem _ h2
  obtain ⟨k1, _, _, hs1⟩ := h.vals_shape c1 a hv1
  obtain ⟨k2, _, _, hs2⟩ := h.vals_shape c2 a hv2
  have heq : patOf pfx c1 ++ natChars k1 = patOf pfx c2 ++ natChars k2 := by
    rw [← hs1, ← hs2]
  have hc : c1 = c2 := by
    simp only [patOf, List.append_assoc, List.singleton_append] at heq
    have h'' := List.append_cancel_left heq
    simp only [List.cons.injEq] at h''
    exact letterOf_inj _ _ h''.1
  subst hc
  exact ⟨rfl, mem_val_unique _ (h.vals_nodup c1) h1 h2⟩

/-- From the invariant: in a non-comment category the `i`-th recorded
entry carries the assigned name numbered `i + 1`. -/
theorem stInv_get_val {pfx : List Char} {st : Obf} (h : StInv pfx st) (cat : Cat)
    (hne : cat ≠ Cat.commentC) (i : Nat) (hi : i < (st.idents cat).length) :
    ((st.idents cat).get ⟨i, hi⟩).2 = patOf pfx cat ++ natChars (i + 1) := by
  obtain ⟨_, hvals⟩ := h.seq_shape cat hne
  have hlen : (dictVals (st.idents cat)).length = (st.idents cat).length := by
    simp [dictVals]
  have h1 : ((st.idents cat).get ⟨i, hi⟩).2 = (dictVals (st.idents cat)).get ⟨i, by omega⟩ := by
    simp [dictVals, List.get_eq_getElem, List.getElem_map]
  rw [h1]
  have hi2 : i < (List.range' 1 (st.idents cat).length).length := by
    simpa using hi
  have h2 : (dictVals (st.idents cat)).get ⟨i, by omega⟩ =
      patOf pfx cat ++ natChars (List.range' 1 (st.idents cat).length)[i] := by
    simp only [List.get_eq_getElem]
    rw [List.getElem_of_eq hvals, List.getElem_map]
  rw [h2, List.getElem_range']
  have : 1 + 1 * i = i + 1 := by omega
  rw [this]

/-! ## Helper lemmas: the table decoder and restorer -/

theorem foldl_no_match (pat : Reg) : ∀ (lines : List (List Char)) (m : Dict),
    (∀ line ∈ lines, reMatch pat line = none) →
    lines.foldl (fun m line =>
      match reMatch pat line with
      | some caps => dictInsert m (caps.g2.getD []) (stripPy (caps.g1.getD []))
      | none => m) m = m := by
  intro lines
  induction lines with
  | nil => intro m _; rfl
  | cons l ls ih =>
    intro m h
    have hl := h l (by simp)
    simp only [List.foldl_cons, hl]
    exact ih m (fun x hx => h x (by simp [hx]))

theorem parse_no_match_map (content : List Char)
    (h : ∀ line ∈ splitNl content,
      reMatch (tableLineReg (parse_conversion_table content).pfx) line = none) :
    (parse_conversion_table content).conversion_map = [] := by
  exact foldl_no_match _ (splitNl content) [] h

theorem deobfuscate_empty (pfx text : List Char) : deobfuscate ⟨pfx, []⟩ text = text := rfl

theorem deobfuscate_split (d : Deob) (code : List Char) :
    deobfuscate d code = deobCommentPass d (deobNormalPass d code) := rfl

theorem deobPartition_go (pfx : List Char) :
    ∀ (names : List (List Char)) (acc : List (List Char) × List (List Char)),
      names.foldl (fun acc n =>
        if isCommentToken pfx n then (acc.1 ++ [n], acc.2) else (acc.1, acc.2 ++ [n])) acc =
      (acc.1 ++ names.filter (fun n => isCommentToken pfx n),
       acc.2 ++ names.filter (fun n => !isCommentToken pfx n)) := by
  intro names
  induction names with
  | nil => intro acc; simp
  | cons n ns ih =>
    intro acc
    simp only [List.foldl_cons, List.filter_cons]
    cases hn : isCommentToken pfx n with
    | true => simp [hn, ih, List.append_assoc]
    | false => simp [hn, ih, List.append_assoc]

/-- The partition of the restorer separates exactly the comment tokens
from the rest, preserving order. -/
theorem deobPartition_eq (pfx : List Char) (names : List (List Char)) :
    deobPartition pfx names =
      (names.filter (fun n => isCommentToken pfx n),
       names.filter (fun n => !isCommentToken pfx n)) := by
  unfold deobPartition
  rw [deobPartition_go]
  simp

/-- Characterization of the comment-token test: prefix, then `c`, then a
non-empty run of digits. -/
theorem isCommentToken_iff (pfx name : List Char) :
    isCommentToken pfx name = true ↔
      ∃ ds : List Char, ds ≠ [] ∧ ds.all isDigitCh = true ∧ name = pfx ++ 'c' :: ds := by
  unfold isCommentToken
  simp only [Bool.and_eq_true, decide_eq_true_eq]
  constructor
  · rintro ⟨⟨hpre, hlen⟩, hdig⟩
    have hp : (pfx ++ ['c']) <+: name := by
      rw [← List.isPrefixOf_iff_prefix]
      exact hpre
    obtain ⟨rest, hrest⟩ := hp
    have hlr : name.length = pfx.length + 1 + rest.length := by
      rw [← hrest]
      simp only [List.length_append, List.length_cons, List.length_nil]
    refine ⟨rest, ?_, ?_, ?_⟩
    · intro hrnil
      rw [hrnil] at hlr
      simp only [List.length_nil] at hlr
      omega
    · have hdrop : name.drop (pfx.length + 1) = rest := by
        rw [← hrest]
        have : pfx.length + 1 = (pfx ++ ['c']).length := by simp
        rw [this, List.drop_left]
      rwa [hdrop] at hdig
    · rw [← hrest]
      simp
  · rintro ⟨ds, hne, hdig, rfl⟩
    have hlds : 0 < ds.length := List.length_pos.mpr hne
    refine ⟨⟨?_, ?_⟩, ?_⟩
    · rw [List.isPrefixOf_iff_prefix]
      exact ⟨ds, by simp⟩
    · simp
      omega
    · have : pfx.length + 1 = (pfx ++ ['c']).length := by simp
      rw [this]
      have hsplit : pfx ++ 'c' :: ds = (pfx ++ ['c']) ++ ds := by simp
      rw [hsplit, List.drop_left]
      exact hdig

end CRen

namespace CRen

/-- One line-comment protection step on `// <body>` with a clean,
non-empty body: the body is registered (overwriting any earlier entry for
the same body) and the payload is the renumbered comment. -/
theorem replace_comment_line (st : Obf) (b : List Char) (hne : b ≠ []) (hstrip : stripPy b = b) :
    replace_comment st (("// ").data ++ b) Caps.empty =
      addProtected (allocIdent .commentC b st)
        (("// ").data ++ (patOf st.pfx .commentC ++ natChars (st.counters .commentC))) := by
  have hdw : ((' ' :: b).dropWhile isPySpace) = b.dropWhile isPySpace := by
    rw [List.dropWhile_cons]
    simp [isPySpace]
  have hcontent : stripPy ((("// ").data ++ b).drop 2) = b := by
    show stripPy (' ' :: b) = b
    unfold stripPy at hstrip ⊢
    rw [hdw]
    exact hstrip
  have hpre : ("//").data.isPrefixOf (("// ").data ++ b) = true := rfl
  unfold replace_comment
  rw [hpre]
  simp only [if_true, hcontent, if_neg hne]

end CRen

namespace CRen

/-! ## The claims -/

set_option maxRecDepth 1000000
set_option maxHeartbeats 4000000

/-- C1 (counterexample): the round trip is not the identity for every
source text and prefix.  In `src10` the non-empty comment body `hi`
occurs twice; the forward run rewrites the first occurrence to `Utc1` and
the second to `Utc2` but the table only records `Utc2`, so the reverse
run leaves `// Utc1` in the text. -/
theorem C1_roundtrip_counterexample :
    deobfuscate (parse_conversion_table (obfuscate utPfx src10).table)
      (obfuscate utPfx src10).code ≠ src10 := by decide

/-- C1 (amended): the round trip restores the original text exactly on
the representative source `src1`, which exercises every category (macro,
enum tag, struct tag, union tag, function, variables, members, a line
comment and a block comment) and whose comment bodies are single-line,
pairwise distinct and already in normalized spacing, with no
prefix-bearing or placeholder-shaped tokens.  No broader universal holds:
a comment written without inner spacing round-trips with its spacing
normalized (`/*hi*/` comes back as `/* hi */`), and a comment body
containing a newline produces a table line that never matches the entry
grammar, so its token does not enter the decoded map and is never
restored. -/
theorem C1_roundtrip_representative :
    deobfuscate (parse_conversion_table (obfuscate utPfx src1).table)
      (obfuscate utPfx src1).code = src1 ∧
    deobfuscate (parse_conversion_table (obfuscate utPfx srcC1sp).table)
      (obfuscate utPfx srcC1sp).code = ("int a;\n/* hi */\n").data ∧
    ("int a;\n/* hi */\n").data ≠ srcC1sp ∧
    dictHasKey (parse_conversion_table (obfuscate utPfx srcC1ml).table).conversion_map
      ("Utc1").data = false ∧
    deobfuscate (parse_conversion_table (obfuscate utPfx srcC1ml).table)
      (obfuscate utPfx srcC1ml).code = ("int a;\n/* Utc1 */\n").data ∧
    ("int a;\n/* Utc1 */\n").data ≠ srcC1ml :=
  ⟨by decide, by decide, by decide, by decide, by decide, by decide⟩

/-- C2 (counterexample): the backward pass does not rewrite exactly the
identifier-boundary occurrences: on `a_Utv1_b` the occurrence of `Utv1`
is preceded and followed by `_` (an identifier-constituent character),
yet the restorer rewrites it via its underscore-partial rule, while the
substitution described by the claim leaves the text unchanged. -/
theorem C2_substitution_counterexample :
    deobfuscate ⟨utPfx, [(("Utv1").data, ("x").data)]⟩ ("a_Utv1_b").data = ("a_x_b").data ∧
    specBoundaryRestore [(("Utv1").data, ("x").data)] ("a_Utv1_b").data = ("a_Utv1_b").data :=
  ⟨by decide, by decide⟩

/-- C2 (amended): the forward pass applies the pairs sorted by source
length descending with ties kept in collection order (a stable sort on
length only), and the backward pass sorts by (length, name) descending;
the word-bounded replacement rewrites exactly the boundary occurrences,
but the backward pass additionally rewrites underscore-delimited
occurrences of prefix-bearing names. -/
theorem C2_substitution_amended :
    (∀ st : Obf, (ssort lenDescLe (allItems st)).Pairwise (fun a b => lenDescLe a b = true)) ∧
    (∀ cmap : Dict, (sorted_names_of cmap).Pairwise (fun a b => keyDescLe a b = true)) ∧
    reSubConst (wordBoundReg ("ax").data) ("Y").data ("ax axe x_ax").data =
      ("Y axe x_ax").data ∧
    deobfuscate ⟨utPfx, [(("Utv1").data, ("x").data)]⟩ ("Utv1_tail c").data =
      ("x_tail c").data := by
  refine ⟨?_, ?_, by decide, by decide⟩
  · intro st
    exact ssort_pairwise _ lenDescLe_total lenDescLe_trans _
  · intro cmap
    exact ssort_pairwise _ keyDescLe_total keyDescLe_trans _

/-- C3 (counterexample): a pattern records names already claimed by an
earlier category: in `src3`, `FOO` is first recorded as a macro, and the
member-access pass records the same `FOO` again as a member, because that
pass only checks its own category map. -/
theorem C3_classifier_counterexample :
    (obfuscate utPfx src3).st.idents Cat.macroC = [(("FOO").data, ("UtD1").data)] ∧
    (obfuscate utPfx src3).st.idents Cat.memberC = [(("FOO").data, ("Utm1").data)] :=
  ⟨by decide, by decide⟩

/-- C3 (amended): the classifier applies its passes in the order macro,
enum tag, struct tag, union tag, function, member, variable; each of the
first six passes skips only names already in its own category map or
reserved words (so cross-category duplication is possible, as `src3`
shows), while the variable passes also check the other category maps (in
`src9` the member `x_coord` matches the variable pattern but is not
recorded as a variable); within each category a name is recorded only at
its first sighting (category keys stay duplicate-free on every run). -/
theorem C3_classifier_amended :
    (∀ pfx src : List Char, ∀ cat : Cat,
      (dictKeys ((obfuscate pfx src).st.idents cat)).Nodup) ∧
    (obfuscate utPfx src3).st.idents Cat.macroC = [(("FOO").data, ("UtD1").data)] ∧
    (obfuscate utPfx src3).st.idents Cat.memberC = [(("FOO").data, ("Utm1").data)] ∧
    (obfuscate utPfx src3).code = ("#define UtD1 1\nx.UtD1;\n").data ∧
    (obfuscate utPfx src9).st.idents Cat.variableC = [] := by
  refine ⟨?_, by decide, by decide, by decide, by decide⟩
  intro pfx src cat
  exact (stInv_obfuscate pfx src).keys_nodup cat

/-- C4: every allocated replacement name is the category pattern (prefix
followed by the category letter, macro=D, enum=e, struct=t, union=u,
function=f, variable=v, member=m, comment=c) followed by the decimal
value of the per-category counter, which starts at 1 and is incremented
exactly once per allocation: in a non-comment category the `i`-th entry
carries number `i + 1` and the counter equals the map size plus one; in
the comment category every recorded value carries some number between 1
and the counter. -/
theorem C4_name_allocation :
    letterOf Cat.macroC = 'D' ∧ letterOf Cat.enumC = 'e' ∧ letterOf Cat.structC = 't' ∧
    letterOf Cat.unionC = 'u' ∧ letterOf Cat.functionC = 'f' ∧
    letterOf Cat.variableC = 'v' ∧ letterOf Cat.memberC = 'm' ∧
    letterOf Cat.commentC = 'c' ∧
    (∀ pfx : List Char, ∀ cat : Cat, patOf pfx cat = pfx ++ [letterOf cat]) ∧
    (∀ pfx : List Char, ∀ cat : Cat, (mkObf pfx).counters cat = 1) ∧
    (∀ pfx src : List Char, ∀ cat : Cat, cat ≠ Cat.commentC →
      (obfuscate pfx src).st.counters cat = ((obfuscate pfx src).st.idents cat).length + 1) ∧
    (∀ pfx src : List Char, ∀ cat : Cat, cat ≠ Cat.commentC →
      ∀ i : Nat, ∀ hi : i < ((obfuscate pfx src).st.idents cat).length,
        (((obfuscate pfx src).st.idents cat).get ⟨i, hi⟩).2 =
          pfx ++ letterOf cat :: natChars (i + 1)) ∧
    (∀ pfx src : List Char, ∀ v ∈ dictVals ((obfuscate pfx src).st.idents Cat.commentC),
      ∃ k, 1 ≤ k ∧ k < (obfuscate pfx src).st.counters Cat.commentC ∧
        v = pfx ++ letterOf Cat.commentC :: natChars k) := by
  refine ⟨rfl, rfl, rfl, rfl, rfl, rfl, rfl, rfl, fun pfx cat => rfl, fun pfx cat => rfl,
    ?_, ?_, ?_⟩
  · intro pfx src cat hne
    exact ((stInv_obfuscate pfx src).seq_shape cat hne).1
  · intro pfx src cat hne i hi
    have h := stInv_get_val (stInv_obfuscate pfx src) cat hne i hi
    rw [h]
    simp [patOf]
  · intro pfx src v hv
    obtain ⟨k, h1, h2, h3⟩ := (stInv_obfuscate pfx src).vals_shape Cat.commentC v hv
    refine ⟨k, h1, h2, ?_⟩
    rw [h3]
    simp [patOf]

/-- C4 (witness): in the run on `src9` with prefix `Ut`, the first macro
entry is assigned `Ut` ++ `D` ++ `1`. -/
theorem C4_name_allocation_witness :
    ∃ hi : 0 < ((obfuscate utPfx src9).st.idents Cat.macroC).length,
      (((obfuscate utPfx src9).st.idents Cat.macroC).get ⟨0, hi⟩).2 =
        utPfx ++ letterOf Cat.macroC :: natChars (0 + 1) := by
  obtain ⟨-, -, -, -, -, -, -, -, -, -, -, hget, -⟩ := C4_name_allocation
  exact ⟨by decide, hget utPfx src9 Cat.macroC (by decide) 0 (by decide)⟩

/-- C5: the restorer is the comment pass composed after the normal pass;
the partition sends exactly the tokens of the form
`prefix ++ "c" ++ nonempty digits` to the comment pass and applies no
generic boundary substitution to them (a comment token outside a comment
context is left untouched), and the comment pass rewrites `// <token>` at
end of line and `/* <token> */` to the original comment body. -/
theorem C5_restorer_phases :
    (∀ (d : Deob) (code : List Char),
      deobfuscate d code = deobCommentPass d (deobNormalPass d code)) ∧
    (∀ pfx names, deobPartition pfx names =
      (names.filter (fun n => isCommentToken pfx n),
       names.filter (fun n => !isCommentToken pfx n))) ∧
    (∀ pfx name, isCommentToken pfx name = true ↔
      ∃ ds : List Char, ds ≠ [] ∧ ds.all isDigitCh = true ∧ name = pfx ++ 'c' :: ds) ∧
    deobfuscate ⟨utPfx, [(("Utc1").data, ("hi").data)]⟩ ("int Utc1;").data =
      ("int Utc1;").data ∧
    deobfuscate ⟨utPfx, [(("Utc1").data, ("hi").data)]⟩ ("x = 1; // Utc1\n").data =
      ("x = 1; // hi\n").data ∧
    deobfuscate ⟨utPfx, [(("Utc1").data, ("hi").data)]⟩ ("/* Utc1 */").data =
      ("/* hi */").data :=
  ⟨deobfuscate_split, deobPartition_eq, isCommentToken_iff, by decide, by decide, by decide⟩

/-- C6 (counterexample): the protector does not restore every literal
byte-for-byte on every source: `src6` is valid C (two adjacent string
literals) whose first literal contains placeholder-shaped text; although
no identifier at all is renamed, un-protection corrupts both literals. -/
theorem C6_literal_opacity_counterexample :
    (∀ cat : Cat, (obfuscate utPfx src6).st.idents cat = []) ∧
    (obfuscate utPfx src6).code = ("\"\"x\"\" \"x\"").data ∧
    (obfuscate utPfx src6).code ≠ src6 :=
  ⟨fun cat => by cases cat <;> decide, by decide, by decide⟩

/-- C6 (amended): on the placeholder-free source `src6p` the forward run
keeps the string literal, the character literal and both empty comments
verbatim, rewrites the one non-empty comment only to its token form, and
the reverse run restores the source byte-for-byte.  Literal opacity is
not universal even without placeholder-shaped text: on `srcC6lit`, whose
string literal spells the token assigned to the variable `a`, the
forward run keeps the literal intact (literals are shielded before
substitution), but the reverse pass substitutes over the raw obfuscated
text, so it rewrites the literal contents from `"Utv1"` to `"a"`. -/
theorem C6_literal_opacity_amended :
    (obfuscate utPfx src6p).code =
      ("int Utv1;\n// Utc1\nchar Utv2 = 'q';\nchar *Utv3 = \"hi\";\n//\n/**/\n").data ∧
    deobfuscate (parse_conversion_table (obfuscate utPfx src6p).table)
      (obfuscate utPfx src6p).code = src6p ∧
    (obfuscate utPfx srcC6lit).code = ("int Utv1;\nchar *Utv2 = \"Utv1\";\n").data ∧
    deobfuscate (parse_conversion_table (obfuscate utPfx srcC6lit).table)
      (obfuscate utPfx srcC6lit).code = ("int a;\nchar *q = \"a\";\n").data ∧
    ("int a;\nchar *q = \"a\";\n").data ≠ srcC6lit :=
  ⟨by decide, by decide, by decide, by decide, by decide⟩

/-- C7: after any forward run, an assigned name occurring in the category
maps determines its category and its original name: no two distinct
original names in one category share an assigned name, and the category
letter separates the categories. -/
theorem C7_assigned_name_unique (pfx src : List Char) (c1 c2 : Cat) (o1 o2 a : List Char)
    (h1 : (o1, a) ∈ (obfuscate pfx src).st.idents c1)
    (h2 : (o2, a) ∈ (obfuscate pfx src).st.idents c2) :
    c1 = c2 ∧ o1 = o2 :=
  stInv_assigned_unique (stInv_obfuscate pfx src) h1 h2

/-- C7 (witness): instantiated on the `src9` run at the assigned name
`UtD1`. -/
theorem C7_assigned_name_unique_witness :
    Cat.macroC = Cat.macroC ∧ ("MAX_SIZE").data = ("MAX_SIZE").data :=
  C7_assigned_name_unique utPfx src9 Cat.macroC Cat.macroC ("MAX_SIZE").data
    ("MAX_SIZE").data ("UtD1").data (by decide) (by decide)

/-- C8: when no line of the table text matches the entry grammar (with
the declared or default prefix), decoding produces an empty reverse map
and the restore pass leaves the input text unchanged; the embedding is a
total function, so the condition is not fatal. -/
theorem C8_decode_soft_failure (content text : List Char)
    (h : ∀ line ∈ splitNl content,
      reMatch (tableLineReg (parse_conversion_table content).pfx) line = none) :
    (parse_conversion_table content).conversion_map = [] ∧
    deobfuscate (parse_conversion_table content) text = text := by
  have hm := parse_no_match_map content h
  refine ⟨hm, ?_⟩
  calc deobfuscate (parse_conversion_table content) text
      = deobfuscate ⟨(parse_conversion_table content).pfx,
          (parse_conversion_table content).conversion_map⟩ text := rfl
    _ = deobfuscate ⟨(parse_conversion_table content).pfx, []⟩ text := by rw [hm]
    _ = text := deobfuscate_empty _ _

/-- C8 (witness): a table text with no matching line decodes to the empty
map and the restore pass is the identity. -/
theorem C8_decode_soft_failure_witness :
    (parse_conversion_table ("hello").data).conversion_map = [] ∧
    deobfuscate (parse_conversion_table ("hello").data) ("abc").data = ("abc").data :=
  C8_decode_soft_failure ("hello").data ("abc").data (by decide)

/-- C9: the example scenario: obfuscating the source with `#define
MAX_SIZE 100` and `struct Point ... x_coord ...` under prefix `Ut`
renames the macro to `UtD1`, the struct tag to `Utt1` and the member to
`Utm1`, the conversion table decodes to exactly those three entries, and
reversing with that table reproduces the source exactly. -/
theorem C9_example_scenario :
    (obfuscate utPfx src9).code =
      ("#define UtD1 100\nstruct Utt1 \x7b int Utm1; \x7d;\n").data ∧
    (parse_conversion_table (obfuscate utPfx src9).table).conversion_map =
      [(("UtD1").data, ("MAX_SIZE").data), (("Utt1").data, ("Point").data),
       (("Utm1").data, ("x_coord").data)] ∧
    deobfuscate (parse_conversion_table (obfuscate utPfx src9).table)
      (obfuscate utPfx src9).code = src9 :=
  ⟨by decide, by decide, by decide⟩

/-- C10: a repeated non-empty comment body receives a fresh
sequence-numbered token at each occurrence, but the comment map is keyed
by the body, so the later token overwrites the earlier one; in the run on
`src10` the output text contains both `Utc1` and `Utc2` while the table
maps only `Utc2`, and `Utc1` appears in no decoded entry. -/
theorem C10_duplicate_comment_bodies :
    (∀ (st : Obf) (b : List Char), b ≠ [] → stripPy b = b →
      dictFind ((replace_comment st (("// ").data ++ b) Caps.empty).1.idents Cat.commentC) b =
        patOf st.pfx Cat.commentC ++ natChars (st.counters Cat.commentC) ∧
      (replace_comment st (("// ").data ++ b) Caps.empty).1.protTable =
        st.protTable ++ [(placeholderOf st.protCounter,
          ("// ").data ++ (patOf st.pfx Cat.commentC ++ natChars (st.counters Cat.commentC)))] ∧
      dictFind ((replace_comment (replace_comment st (("// ").data ++ b) Caps.empty).1
          (("// ").data ++ b) Caps.empty).1.idents Cat.commentC) b =
        patOf st.pfx Cat.commentC ++ natChars (st.counters Cat.commentC + 1) ∧
      patOf st.pfx Cat.commentC ++ natChars (st.counters Cat.commentC) ≠
        patOf st.pfx Cat.commentC ++ natChars (st.counters Cat.commentC + 1)) ∧
    (obfuscate utPfx src10).code = ("// Utc1\nint Utv1;\n// Utc2\n").data ∧
    (obfuscate utPfx src10).st.idents Cat.commentC = [(("hi").data, ("Utc2").data)] ∧
    dictHasKey (parse_conversion_table (obfuscate utPfx src10).table).conversion_map
      ("Utc1").data = false ∧
    (parse_conversion_table (obfuscate utPfx src10).table).conversion_map =
      [(("Utv1").data, ("a").data), (("Utc2").data, ("hi").data)] := by
  refine ⟨?_, by decide, by decide, by decide, by decide⟩
  intro st b hne hstrip
  have h1 := replace_comment_line st b hne hstrip
  have hst1p : (replace_comment st (("// ").data ++ b) Caps.empty).1.pfx = st.pfx := by
    rw [h1]
    rfl
  have hst1c : (replace_comment st (("// ").data ++ b) Caps.empty).1.counters Cat.commentC =
      st.counters Cat.commentC + 1 := by
    rw [h1]
    show (allocIdent Cat.commentC b st).counters Cat.commentC = st.counters Cat.commentC + 1
    exact allocIdent_counters_self _ _ _
  have h2 := replace_comment_line (replace_comment st (("// ").data ++ b) Caps.empty).1 b
    hne hstrip
  refine ⟨?_, ?_, ?_, ?_⟩
  · rw [h1]
    show dictFind ((allocIdent Cat.commentC b st).idents Cat.commentC) b = _
    rw [allocIdent_idents_self]
    exact dictFind_insert _ _ _
  · rw [h1]
    show (allocIdent Cat.commentC b st).protTable ++ _ = _
    rw [allocIdent_prot]
    rfl
  · rw [h2, hst1p, hst1c]
    show dictFind ((allocIdent Cat.commentC b _).idents Cat.commentC) b = _
    rw [allocIdent_idents_self, hst1p, hst1c]
    exact dictFind_insert _ _ _
  · intro hc
    have := natChars_inj (List.append_cancel_left hc)
    omega

/-- C10 (witness): the overwrite lemma instantiated at the initial state
and the body `hi`. -/
theorem C10_duplicate_comment_bodies_witness :
    dictFind ((replace_comment (replace_comment (mkObf utPfx)
        (("// ").data ++ ("hi").data) Caps.empty).1
        (("// ").data ++ ("hi").data) Caps.empty).1.idents Cat.commentC) ("hi").data =
      patOf utPfx Cat.commentC ++ natChars ((mkObf utPfx).counters Cat.commentC + 1) :=
  (C10_duplicate_comment_bodies.1 (mkObf utPfx) ("hi").data (by decide) (by decide)).2.2.1

end CRen
